import Mathlib

/-!
Verification development for the mention-notification flow of
`ActivityService.createOne` (src/api/src/services/activity.ts).

The TypeScript method is shallowly embedded as pure Lean functions:

* mention extraction (the global case-insensitive regex
  `@[0-9A-F]{8}-[0-9A-F]{4}-4[0-9A-F]{3}-[89AB][0-9A-F]{3}-[0-9A-F]{12}`
  followed by lodash `uniq`) becomes a character-list scanner;
* the per-mention fan-out (resolve recipient, build a fresh accountability,
  resolve permissions, check access, batch-fetch display profiles, render the
  quoted comment, enqueue the notification, catch `Forbidden`) becomes an
  interpreter over an oracle environment `Env` describing the external
  collaborators (user store, permission resolver, authorization oracle,
  notification sink, record store);
* observable side effects are recorded in an explicit event trace (`Ev`).

External collaborators whose code is not part of the embedded source are
modelled from the specification; their definitions carry a
`Modelled from the spec:` doc comment.
-/

set_option maxRecDepth 4000

/-! ## Mention extraction (activity.ts line 32-34) -/

/-- Hexadecimal digit, upper or lower case: the character class `[0-9A-F]`
under the regex `i` flag. -/
def isHexDigit (c : Char) : Bool :=
  ('0' ≤ c && c ≤ '9') || ('a' ≤ c && c ≤ 'f') || ('A' ≤ c && c ≤ 'F')

/-- Variant nibble of the UUID: the character class `[89AB]` under the
regex `i` flag. -/
def isVariantChar (c : Char) : Bool :=
  c == '8' || c == '9' || c == 'A' || c == 'B' || c == 'a' || c == 'b'

/-- Consume exactly `n` hexadecimal characters, returning them and the rest. -/
def takeHex : Nat → List Char → Option (List Char × List Char)
  | 0, cs => some ([], cs)
  | _ + 1, [] => none
  | n + 1, c :: cs =>
    if isHexDigit c then
      match takeHex n cs with
      | some (t, r) => some (c :: t, r)
      | none => none
    else none

/-- Consume one expected literal character. -/
def expectChar (x : Char) : List Char → Option (List Char)
  | [] => none
  | c :: cs => if c == x then some cs else none

/-- Consume one variant-nibble character (`[89AB]`, case-insensitive). -/
def takeVariant : List Char → Option (Char × List Char)
  | [] => none
  | c :: cs => if isVariantChar c then some (c, cs) else none

/-- Match the 36-character UUID body of the mention regex
(`[0-9A-F]{8}-[0-9A-F]{4}-4[0-9A-F]{3}-[89AB][0-9A-F]{3}-[0-9A-F]{12}`,
case-insensitive) at the head of the character list, returning the matched
characters and the remainder. -/
def matchUuid (cs : List Char) : Option (List Char × List Char) :=
  (takeHex 8 cs).bind fun p1 =>
  (expectChar '-' p1.2).bind fun r2 =>
  (takeHex 4 r2).bind fun p2 =>
  (expectChar '-' p2.2).bind fun r4 =>
  (expectChar '4' r4).bind fun r5 =>
  (takeHex 3 r5).bind fun p3 =>
  (expectChar '-' p3.2).bind fun r7 =>
  (takeVariant r7).bind fun pv =>
  (takeHex 3 pv.2).bind fun p4 =>
  (expectChar '-' p4.2).bind fun r10 =>
  (takeHex 12 r10).bind fun p5 =>
  some (p1.1 ++ '-' :: p2.1 ++ '-' :: '4' :: p3.1 ++ '-' :: pv.1 :: p4.1 ++
    '-' :: p5.1, p5.2)

/-- Global regex scan: walk the text left to right; at each `@` attempt the
UUID match, emit the matched token and continue after it (non-overlapping,
exactly the semantics of `String.prototype.match` with the `g` flag).
The fuel argument is the length of the scanned list. -/
def scanMentionsF : Nat → List Char → List (List Char)
  | 0, _ => []
  | _ + 1, [] => []
  | fuel + 1, c :: rest =>
    if c == '@' then
      match matchUuid rest with
      | some (tok, rest') => (c :: tok) :: scanMentionsF fuel rest'
      | none => scanMentionsF fuel rest
    else scanMentionsF fuel rest

/-- All (possibly repeated) regex matches of the mention pattern in the text,
in text order: `data['comment'].match(usersRegExp) ?? []`. -/
def rawMentions (text : String) : List String :=
  (scanMentionsF text.data.length text.data).map (fun cs => String.mk cs)

/-- De-duplication keeping the first occurrence of each element, in order:
lodash `uniq`. -/
def uniqFirstAux : List String → List String → List String
  | [], _ => []
  | x :: xs, seen =>
    if x ∈ seen then uniqFirstAux xs seen else x :: uniqFirstAux xs (x :: seen)

/-- lodash `uniq`: first-occurrence-ordered duplicate-free list. -/
def uniqFirst (l : List String) : List String := uniqFirstAux l []

/-- activity.ts line 32-34: `uniq(data['comment'].match(usersRegExp) ?? [])`. -/
def extractMentions (text : String) : List String := uniqFirst (rawMentions text)

/-- JS `mention.substring(1)`: the mention token without its `@` sigil
(all token characters are ASCII, so code-unit and character indexing agree). -/
def mentionUuid (m : String) : String := String.mk (m.data.drop 1)

/-- Modelled from the spec: §3/§9 describe the secondary format validation
`isValidUuid` (src/api/src/utils/is-valid-uuid.ts, not part of the embedded
source) as checking the same identifier grammar that extraction matched. -/
def isValidUuid (s : String) : Bool :=
  match matchUuid s.data with
  | some (_, rest) => rest.isEmpty
  | none => false

/-! ## The spec-side mention grammar (§3, §4.1) -/

/-- Modelled from the spec: the shape of the identifier body — 32 hex digits
in 8-4-4-4-12 grouping, case-insensitive, version nibble fixed to `4`,
variant nibble one of `8`, `9`, `A`, `B` (case-insensitive). -/
def UuidShape (u : List Char) : Prop :=
  ∃ (g1 g2 g3 g4 g5 : List Char) (v : Char),
    u = g1 ++ '-' :: g2 ++ '-' :: '4' :: g3 ++ '-' :: v :: g4 ++ '-' :: g5 ∧
    g1.length = 8 ∧ g2.length = 4 ∧ g3.length = 3 ∧ g4.length = 3 ∧
    g5.length = 12 ∧
    (∀ c ∈ g1, isHexDigit c = true) ∧ (∀ c ∈ g2, isHexDigit c = true) ∧
    (∀ c ∈ g3, isHexDigit c = true) ∧ (∀ c ∈ g4, isHexDigit c = true) ∧
    (∀ c ∈ g5, isHexDigit c = true) ∧ isVariantChar v = true

/-- Modelled from the spec: a MentionToken is the `@` sigil followed by an
identifier of the grammar above (§4.1). -/
def MentionGrammar (s : String) : Prop :=
  ∃ u, s.data = '@' :: u ∧ UuidShape u

/-! ## Elementary facts about the UUID matcher -/

theorem takeHex_spec :
    ∀ (n : Nat) (cs t r : List Char), takeHex n cs = some (t, r) →
      cs = t ++ r ∧ t.length = n ∧ ∀ c ∈ t, isHexDigit c = true := by
  intro n
  induction n with
  | zero =>
    intro cs t r h
    simp [takeHex] at h
    simp [h.1, h.2]
  | succ n ih =>
    intro cs t r h
    cases cs with
    | nil => simp [takeHex] at h
    | cons c cs =>
      simp only [takeHex] at h
      by_cases hc : isHexDigit c
      · rw [if_pos hc] at h
        cases htk : takeHex n cs with
        | none => rw [htk] at h; simp at h
        | some pr =>
          obtain ⟨t', r'⟩ := pr
          rw [htk] at h
          simp at h
          obtain ⟨ht, hr⟩ := h
          obtain ⟨hcs, hlen, hhex⟩ := ih cs t' r' htk
          subst ht hr
          refine ⟨by simp [hcs], by simp [hlen], ?_⟩
          intro x hx
          rcases List.mem_cons.mp hx with h1 | h2
          · rw [h1]; exact hc
          · exact hhex x h2
      · rw [if_neg hc] at h; simp at h

theorem expectChar_spec (x : Char) (cs r : List Char)
    (h : expectChar x cs = some r) : cs = x :: r := by
  cases cs with
  | nil => simp [expectChar] at h
  | cons c cs =>
    simp only [expectChar] at h
    by_cases hc : c == x
    · rw [if_pos hc] at h
      simp at h
      rw [eq_of_beq hc, h]
    · rw [if_neg hc] at h; simp at h

theorem takeVariant_spec (cs : List Char) (v : Char) (r : List Char)
    (h : takeVariant cs = some (v, r)) :
    cs = v :: r ∧ isVariantChar v = true := by
  cases cs with
  | nil => simp [takeVariant] at h
  | cons c cs =>
    simp only [takeVariant] at h
    by_cases hc : isVariantChar c
    · rw [if_pos hc] at h
      simp at h
      exact ⟨by rw [h.1, h.2], by rw [← h.1]; exact hc⟩
    · rw [if_neg hc] at h; simp at h

theorem matchUuid_spec (cs u r : List Char) (h : matchUuid cs = some (u, r)) :
    cs = u ++ r ∧ UuidShape u := by
  simp only [matchUuid, Option.bind_eq_some] at h
  obtain ⟨⟨g1, r1⟩, h1, ⟨r2, h2, ⟨⟨g2, r3⟩, h3, ⟨r4, h4, ⟨r5, h5, ⟨⟨g3, r6⟩,
    h6, ⟨r7, h7, ⟨⟨v, r8⟩, h8, ⟨⟨g4, r9⟩, h9, ⟨r10, h10, ⟨⟨g5, r11⟩, h11,
    hfin⟩⟩⟩⟩⟩⟩⟩⟩⟩⟩⟩ := h
  simp only [Option.some.injEq, Prod.mk.injEq] at hfin
  obtain ⟨hu, hr⟩ := hfin
  obtain ⟨e1, l1, x1⟩ := takeHex_spec 8 cs g1 r1 h1
  have e2 := expectChar_spec '-' r1 r2 h2
  obtain ⟨e3, l3, x3⟩ := takeHex_spec 4 r2 g2 r3 h3
  have e4 := expectChar_spec '-' r3 r4 h4
  have e5 := expectChar_spec '4' r4 r5 h5
  obtain ⟨e6, l6, x6⟩ := takeHex_spec 3 r5 g3 r6 h6
  have e7 := expectChar_spec '-' r6 r7 h7
  obtain ⟨e8, v8⟩ := takeVariant_spec r7 v r8 h8
  obtain ⟨e9, l9, x9⟩ := takeHex_spec 3 r8 g4 r9 h9
  have e10 := expectChar_spec '-' r9 r10 h10
  obtain ⟨e11, l11, x11⟩ := takeHex_spec 12 r10 g5 r11 h11
  subst hr hu
  constructor
  · rw [e1, e2, e3, e4, e5, e6, e7, e8, e9, e10, e11]
    simp
  · exact ⟨g1, g2, g3, g4, g5, v, rfl, l1, l3, l6, l9, l11, x1, x3, x6, x9,
      x11, v8⟩

theorem isVariantChar_hex {v : Char} (h : isVariantChar v = true) :
    isHexDigit v = true := by
  simp only [isVariantChar, Bool.or_eq_true, beq_iff_eq] at h
  rcases h with ((((h | h) | h) | h) | h) | h <;> subst h <;> decide

theorem UuidShape.length_eq {u : List Char} (h : UuidShape u) :
    u.length = 36 := by
  obtain ⟨g1, g2, g3, g4, g5, v, rfl, l1, l3, l6, l9, l11, -⟩ := h
  simp [List.length_append, l1, l3, l6, l9, l11]

theorem UuidShape.no_at {u : List Char} (h : UuidShape u) : '@' ∉ u := by
  obtain ⟨g1, g2, g3, g4, g5, v, rfl, l1, l3, l6, l9, l11, x1, x3, x6, x9,
    x11, v8⟩ := h
  intro hmem
  simp only [List.append_assoc, List.cons_append, List.mem_append,
    List.mem_cons] at hmem
  rcases hmem with h | h | h | h | h | h | h | h | h | h | h
  · exact absurd (x1 _ h) (by decide)
  · exact absurd h (by decide)
  · exact absurd (x3 _ h) (by decide)
  · exact absurd h (by decide)
  · exact absurd h (by decide)
  · exact absurd (x6 _ h) (by decide)
  · exact absurd h (by decide)
  · subst h; exact absurd v8 (by decide)
  · exact absurd (x9 _ h) (by decide)
  · exact absurd h (by decide)
  · exact absurd (x11 _ h) (by decide)

theorem takeHex_complete {n : Nat} {t : List Char} (hl : t.length = n)
    (hx : ∀ c ∈ t, isHexDigit c = true) :
    ∀ r, takeHex n (t ++ r) = some (t, r) := by
  induction t generalizing n with
  | nil => intro r; subst hl; simp [takeHex]
  | cons c cs ih =>
    intro r
    subst hl
    simp only [List.length_cons, List.cons_append, takeHex, List.append_eq]
    rw [if_pos (hx c (List.mem_cons_self c cs))]
    rw [ih rfl (fun x hx' => hx x (List.mem_cons_of_mem c hx')) r]

theorem expectChar_cons_self (x : Char) (r : List Char) :
    expectChar x (x :: r) = some r := by
  simp [expectChar]

theorem takeVariant_cons {v : Char} (h : isVariantChar v = true)
    (r : List Char) : takeVariant (v :: r) = some (v, r) := by
  simp [takeVariant, h]

theorem matchUuid_complete {u : List Char} (h : UuidShape u) (b : List Char) :
    matchUuid (u ++ b) = some (u, b) := by
  obtain ⟨g1, g2, g3, g4, g5, v, rfl, l1, l3, l6, l9, l11, x1, x3, x6, x9,
    x11, v8⟩ := h
  simp only [matchUuid, List.append_assoc, List.cons_append,
    takeHex_complete l1 x1, takeHex_complete l3 x3, takeHex_complete l6 x6,
    takeHex_complete l9 x9, takeHex_complete l11 x11, expectChar_cons_self,
    takeVariant_cons v8, Option.some_bind]

/-! ## Soundness and completeness of the scan -/

theorem scan_sound :
    ∀ (fuel : Nat) (cs t : List Char), t ∈ scanMentionsF fuel cs →
      ∃ a b u, t = '@' :: u ∧ UuidShape u ∧ cs = a ++ t ++ b := by
  intro fuel
  induction fuel with
  | zero => intro cs t h; simp [scanMentionsF] at h
  | succ fuel ih =>
    intro cs t h
    cases cs with
    | nil => simp [scanMentionsF] at h
    | cons c rest =>
      simp only [scanMentionsF] at h
      by_cases hc : c == '@'
      · rw [if_pos hc] at h
        cases hm : matchUuid rest with
        | none =>
          rw [hm] at h
          obtain ⟨a, b, u, ht, hsh, hrest⟩ := ih rest t h
          exact ⟨c :: a, b, u, ht, hsh, by simp [hrest]⟩
        | some pr =>
          obtain ⟨tok, rest'⟩ := pr
          rw [hm] at h
          obtain ⟨hrest, hsh⟩ := matchUuid_spec rest tok rest' hm
          rcases List.mem_cons.mp h with h1 | h2
          · refine ⟨[], rest', tok, ?_, hsh, ?_⟩
            · rw [h1, eq_of_beq hc]
            · rw [h1, hrest]; simp
          · obtain ⟨a, b, u, ht, hsh', hr'⟩ := ih rest' t h2
            exact ⟨c :: tok ++ a, b, u, ht, hsh', by simp [hrest, hr']⟩
      · rw [if_neg hc] at h
        obtain ⟨a, b, u, ht, hsh, hrest⟩ := ih rest t h
        exact ⟨c :: a, b, u, ht, hsh, by simp [hrest]⟩

/-- When two decompositions of the same list put position `m1.length` strictly
inside `l1`, the element at that position belongs to `l1`. -/
theorem mem_left_of_append_eq (l1 l2 m1 m2 : List Char) (x : Char)
    (h : l1 ++ l2 = m1 ++ x :: m2) (hlt : m1.length < l1.length) : x ∈ l1 := by
  have h2 := congrArg (List.take l1.length) h
  rw [List.take_left, List.take_append_eq_append_take,
    List.take_of_length_le (Nat.le_of_lt hlt)] at h2
  have h3 : l1.length - m1.length = (l1.length - m1.length - 1) + 1 := by omega
  rw [h3, List.take_succ_cons] at h2
  rw [h2]
  simp

theorem scan_complete :
    ∀ (fuel : Nat) (a u b : List Char), UuidShape u →
      (a ++ '@' :: u ++ b).length ≤ fuel →
      ('@' :: u) ∈ scanMentionsF fuel (a ++ '@' :: u ++ b) := by
  intro fuel
  induction fuel with
  | zero =>
    intro a u b _ hle
    simp [List.length_append] at hle
  | succ fuel ih =>
    intro a u b hsh hle
    cases a with
    | nil =>
      simp only [List.nil_append, List.cons_append, scanMentionsF,
        List.append_eq]
      rw [if_pos (show ('@' == '@') = true from rfl)]
      rw [matchUuid_complete hsh b]
      exact List.mem_cons_self _ _
    | cons c a' =>
      have hcs : (c :: a') ++ '@' :: u ++ b = c :: (a' ++ '@' :: u ++ b) := by
        simp
      rw [hcs]
      have hle' : (a' ++ '@' :: u ++ b).length ≤ fuel := by
        rw [hcs] at hle
        simpa using Nat.le_of_succ_le_succ hle
      simp only [scanMentionsF]
      by_cases hc : c == '@'
      · rw [if_pos hc]
        cases hm : matchUuid (a' ++ '@' :: u ++ b) with
        | none => exact ih a' u b hsh hle'
        | some pr =>
          obtain ⟨tok, rest'⟩ := pr
          obtain ⟨hsplit, hshtok⟩ :=
            matchUuid_spec (a' ++ '@' :: u ++ b) tok rest' hm
          by_cases hlen : a'.length < tok.length
          · exfalso
            have hat : '@' ∈ tok := by
              refine mem_left_of_append_eq tok rest' a' (u ++ b) '@' ?_ hlen
              rw [← hsplit]; simp
            exact hshtok.no_at hat
          · push_neg at hlen
            have hrest' : rest' = (a'.drop tok.length) ++ '@' :: u ++ b := by
              have h4 := congrArg (List.drop tok.length) hsplit.symm
              rw [List.drop_left] at h4
              rw [List.append_assoc, List.drop_append_eq_append_drop,
                Nat.sub_eq_zero_of_le hlen, List.drop_zero,
                ← List.append_assoc] at h4
              exact h4
            have hle'' : ((a'.drop tok.length) ++ '@' :: u ++ b).length ≤ fuel := by
              rw [← hrest']
              calc rest'.length ≤ (a' ++ '@' :: u ++ b).length := by
                    rw [hsplit]; simp
                _ ≤ fuel := hle'
            have := ih (a'.drop tok.length) u b hsh hle''
            rw [← hrest'] at this
            exact List.mem_cons_of_mem _ this
      · rw [if_neg hc]
        exact ih a' u b hsh hle'

/-! ## Properties of lodash uniq -/

theorem mem_uniqFirstAux :
    ∀ (l seen : List String) (x : String),
      x ∈ uniqFirstAux l seen ↔ x ∈ l ∧ x ∉ seen := by
  intro l
  induction l with
  | nil => intro seen x; simp [uniqFirstAux]
  | cons y ys ih =>
    intro seen x
    simp only [uniqFirstAux]
    by_cases hy : y ∈ seen
    · rw [if_pos hy, ih]
      constructor
      · rintro ⟨h1, h2⟩
        exact ⟨List.mem_cons_of_mem y h1, h2⟩
      · rintro ⟨h1, h2⟩
        rcases List.mem_cons.mp h1 with h3 | h3
        · exact absurd (h3 ▸ hy) h2
        · exact ⟨h3, h2⟩
    · rw [if_neg hy]
      simp only [List.mem_cons, ih, List.mem_cons]
      constructor
      · rintro (rfl | ⟨h1, h2⟩)
        · exact ⟨Or.inl rfl, hy⟩
        · refine ⟨Or.inr h1, fun hs => h2 (Or.inr hs)⟩
      · rintro ⟨rfl | h1, h2⟩
        · exact Or.inl rfl
        · by_cases hxy : x = y
          · exact Or.inl hxy
          · exact Or.inr ⟨h1, fun hs => by
              rcases hs with h3 | h3
              exacts [hxy h3, h2 h3]⟩

theorem nodup_uniqFirstAux :
    ∀ (l seen : List String), (uniqFirstAux l seen).Nodup := by
  intro l
  induction l with
  | nil => intro seen; simp [uniqFirstAux]
  | cons y ys ih =>
    intro seen
    simp only [uniqFirstAux]
    by_cases hy : y ∈ seen
    · rw [if_pos hy]; exact ih seen
    · rw [if_neg hy]
      refine List.Nodup.cons ?_ (ih (y :: seen))
      intro hmem
      exact ((mem_uniqFirstAux ys (y :: seen) y).mp hmem).2
        (List.mem_cons_self y seen)

theorem pairwise_indexOf_uniqFirstAux :
    ∀ (l seen : List String),
      List.Pairwise (fun a b => l.indexOf a < l.indexOf b)
        (uniqFirstAux l seen) := by
  intro l
  induction l with
  | nil => intro seen; simp [uniqFirstAux]
  | cons y ys ih =>
    intro seen
    simp only [uniqFirstAux]
    by_cases hy : y ∈ seen
    · rw [if_pos hy]
      refine ((ih seen).imp_of_mem ?_)
      intro a b ha hb hr
      have ha' := (mem_uniqFirstAux ys seen a).mp ha
      have hb' := (mem_uniqFirstAux ys seen b).mp hb
      have hay : y ≠ a := fun h => ha'.2 (h ▸ hy)
      have hby : y ≠ b := fun h => hb'.2 (h ▸ hy)
      rw [List.indexOf_cons_ne ys hay, List.indexOf_cons_ne ys hby]
      exact Nat.succ_lt_succ hr
    · rw [if_neg hy]
      refine List.Pairwise.cons ?_ ?_
      · intro b hb
        have hb' := (mem_uniqFirstAux ys (y :: seen) b).mp hb
        have hby : y ≠ b := fun h => hb'.2 (h ▸ List.mem_cons_self y seen)
        rw [List.indexOf_cons_self, List.indexOf_cons_ne ys hby]
        exact Nat.succ_pos _
      · refine ((ih (y :: seen)).imp_of_mem ?_)
        intro a b ha hb hr
        have ha' := (mem_uniqFirstAux ys (y :: seen) a).mp ha
        have hb' := (mem_uniqFirstAux ys (y :: seen) b).mp hb
        have hay : y ≠ a := fun h => ha'.2 (h ▸ List.mem_cons_self y seen)
        have hby : y ≠ b := fun h => hb'.2 (h ▸ List.mem_cons_self y seen)
        rw [List.indexOf_cons_ne ys hay, List.indexOf_cons_ne ys hby]
        exact Nat.succ_lt_succ hr

theorem mem_uniqFirst (l : List String) (x : String) :
    x ∈ uniqFirst l ↔ x ∈ l := by
  rw [uniqFirst, mem_uniqFirstAux]
  simp

/-! ## Extraction facts -/

theorem mem_rawMentions (text : String) (t : String) :
    t ∈ rawMentions text ↔
      (∃ a b, text.data = a ++ t.data ++ b) ∧ MentionGrammar t := by
  constructor
  · intro h
    rw [rawMentions, List.mem_map] at h
    obtain ⟨cs, hcs, rfl⟩ := h
    obtain ⟨a, b, u, rfl, hsh, hdec⟩ := scan_sound _ _ _ hcs
    exact ⟨⟨a, b, hdec⟩, ⟨u, rfl, hsh⟩⟩
  · rintro ⟨⟨a, b, hdec⟩, ⟨u, hu, hsh⟩⟩
    rw [rawMentions, List.mem_map]
    refine ⟨t.data, ?_, by cases t; rfl⟩
    rw [hu] at hdec ⊢
    rw [hdec]
    exact scan_complete _ a u b hsh (Nat.le_refl _)

/-! ## Rendering (activity.ts line 62-98) -/

/-- Does `pat` occur verbatim at the head of `s`? -/
def leadsWith : List Char → List Char → Bool
  | [], _ => true
  | _ :: _, [] => false
  | p :: ps, c :: cs => p == c && leadsWith ps cs

/-- Literal global replacement, the semantics of
`comment.replace(new RegExp(mention, 'gm'), replacement)` for a pattern with
no regex metacharacters: scan left to right, replace each (non-overlapping)
occurrence of `pat` by `rep`. Fuel is the length of the scanned list. -/
def replaceAllF : Nat → List Char → List Char → List Char → List Char
  | 0, _, _, s => s
  | _ + 1, _, _, [] => []
  | fuel + 1, pat, rep, c :: cs =>
    if !pat.isEmpty && leadsWith pat (c :: cs) then
      rep ++ replaceAllF fuel pat rep ((c :: cs).drop pat.length)
    else
      c :: replaceAllF fuel pat rep cs

/-- Literal global replacement of `pat` by `rep` in `s`. -/
def replaceAll (pat rep s : List Char) : List Char :=
  replaceAllF s.length pat rep s

/-- Modelled from the spec: `userName` (src/api/src/utils/user-name.ts, not
part of the embedded source) — §4.4: the preferred given+family display name,
falling back to the contact address, falling back to a fixed default when no
display name can be formed at all. -/
structure UserRec where
  id : String
  firstName : Option String
  lastName : Option String
  email : Option String
  roleId : Option String
  roleAdmin : Option Bool
  roleApp : Option Bool
deriving DecidableEq

/-- Modelled from the spec: display-name selection for a user profile
(§4.4 step 1). -/
def userName (u : UserRec) : String :=
  match u.firstName, u.lastName with
  | some f, some l => f ++ " " ++ l
  | some f, none => f
  | none, _ =>
    match u.email with
    | some e => e
    | none => "Unknown User"

/-- activity.ts line 67-73: the reduce building `userPreviews`, a map from
user id to the emphasized display name; later assignments overwrite earlier
ones, as for a JS object. -/
def mkPreviews (td : List UserRec) : String → Option String :=
  td.foldl
    (fun f u => fun k =>
      if k = u.id then some ("<em>" ++ userName u ++ "</em>") else f k)
    (fun _ => none)

/-- activity.ts line 81: `userPreviews[uuid] ?? '@Unknown User'`. -/
def mentionSubst (previews : String → Option String) (uuid : String) : String :=
  (previews uuid).getD "@Unknown User"

/-- activity.ts line 75-82: fold over the mention list replacing each token
globally; tokens failing the secondary `isValidUuid` check are skipped. -/
def substituteMentions (mentions : List String)
    (previews : String → Option String) (text : List Char) : List Char :=
  mentions.foldl
    (fun acc mention =>
      if isValidUuid (mentionUuid mention) = false then acc
      else
        replaceAll mention.data (mentionSubst previews (mentionUuid mention)).data
          acc)
    text

/-- activity.ts line 84, the inner replace: `comment.replace(/\n+/gm, '\n> ')` —
every maximal run of newlines becomes a single quoted line break. The boolean
records whether the previous character was a newline. -/
def collapseQuote : List Char → Bool → List Char
  | [], _ => []
  | c :: cs, prevNl =>
    if c == '\n' then
      if prevNl then collapseQuote cs true
      else '\n' :: '>' :: ' ' :: collapseQuote cs true
    else c :: collapseQuote cs false

/-- activity.ts line 84: the quoted body, a quote marker followed by the
newline-collapsed text. -/
def quoteBody (s : List Char) : List Char := '>' :: ' ' :: collapseQuote s false

/-- Full rendering of the quoted comment for one notification:
substitution (line 75-82) then quoting (line 84). -/
def renderComment (mentions : List String)
    (previews : String → Option String) (text : String) : String :=
  String.mk (quoteBody (substituteMentions mentions previews text.data))

/-- Modelled from the spec: the link builder (§6) is pure string composition
of base URL, the fixed admin path, collection and item. -/
def mkHref (publicUrl collection item : String) : String :=
  publicUrl ++ "/admin/content/" ++ collection ++ "/" ++ item

/-- activity.ts line 90-98: the notification message template. -/
def mkMessage (recipient sender : UserRec) (quoted href : String) : String :=
  "\nOlá " ++ userName recipient ++ ",\n\n" ++ userName sender ++
    " mencionou você em um comentário:\n\n" ++ quoted ++
    "\n\n<a href=\"" ++ href ++ "\">Clique aqui para ver.</a>\n"

/-! ## Lines of a text, for the quoting property -/

/-- Split a character list at newlines (the newline separators are dropped,
empty lines are kept). -/
def linesOf : List Char → List (List Char)
  | [] => [[]]
  | c :: cs =>
    if c == '\n' then [] :: linesOf cs
    else
      match linesOf cs with
      | [] => [[c]]
      | h :: tl => (c :: h) :: tl

/-- Does the text contain two adjacent newline characters? -/
def hasDoubleNl : List Char → Bool
  | [] => false
  | [_] => false
  | a :: b :: rest => (a == '\n' && b == '\n') || hasDoubleNl (b :: rest)

/-! ## Replacement lemmas -/

theorem leadsWith_iff (pat s : List Char) :
    leadsWith pat s = true ↔ ∃ t, s = pat ++ t := by
  induction pat generalizing s with
  | nil => simp [leadsWith]
  | cons p ps ih =>
    cases s with
    | nil => simp [leadsWith]
    | cons c cs =>
      simp only [leadsWith, Bool.and_eq_true, beq_iff_eq, ih]
      constructor
      · rintro ⟨rfl, t, rfl⟩
        exact ⟨t, rfl⟩
      · rintro ⟨t, ht⟩
        rw [List.cons_append] at ht
        injection ht with h1 h2
        exact ⟨h1.symm, t, h2⟩

theorem replaceAllF_congr :
    ∀ (f1 f2 : Nat) (pat rep s : List Char), s.length ≤ f1 → s.length ≤ f2 →
      replaceAllF f1 pat rep s = replaceAllF f2 pat rep s := by
  intro f1
  induction f1 with
  | zero =>
    intro f2 pat rep s h1 _
    have : s = [] := List.eq_nil_of_length_eq_zero (Nat.le_zero.mp h1)
    subst this
    cases f2 <;> simp [replaceAllF]
  | succ f1 ih =>
    intro f2 pat rep s h1 h2
    cases s with
    | nil => cases f2 <;> simp [replaceAllF]
    | cons c cs =>
      cases f2 with
      | zero => simp at h2
      | succ f2 =>
        simp only [replaceAllF]
        have h1' : cs.length + 1 ≤ f1 + 1 := by simpa using h1
        have h2' : cs.length + 1 ≤ f2 + 1 := by simpa using h2
        by_cases hcond : !pat.isEmpty && leadsWith pat (c :: cs)
        · rw [if_pos hcond, if_pos hcond]
          have hpat : pat ≠ [] := by
            intro hnil
            subst hnil
            simp at hcond
          have hplen : 1 ≤ pat.length := by
            cases pat with
            | nil => exact absurd rfl hpat
            | cons _ _ => simp
          have hlen : ((c :: cs).drop pat.length).length ≤ f1 := by
            simp only [List.length_drop, List.length_cons]
            omega
          have hlen2 : ((c :: cs).drop pat.length).length ≤ f2 := by
            simp only [List.length_drop, List.length_cons]
            omega
          rw [ih f2 pat rep _ hlen hlen2]
        · rw [if_neg hcond, if_neg hcond]
          rw [ih f2 pat rep cs (by omega) (by omega)]

theorem replaceAllF_no_occurrence :
    ∀ (fuel : Nat) (pat rep s : List Char),
      (∀ j, leadsWith pat (s.drop j) = false) →
      replaceAllF fuel pat rep s = s := by
  intro fuel
  induction fuel with
  | zero => intro pat rep s _; simp [replaceAllF]
  | succ fuel ih =>
    intro pat rep s hno
    cases s with
    | nil => simp [replaceAllF]
    | cons c cs =>
      simp only [replaceAllF]
      rw [if_neg]
      · rw [ih pat rep cs (fun j => by simpa using hno (j + 1))]
      · have h0 := hno 0
        simp only [List.drop_zero] at h0
        simp [h0]

/-- If no occurrence of `pat` starts before position `a.length` and `pat` is
nonempty, then global replacement rewrites the text around the occurrence at
`a.length` and continues to the right of it. -/
theorem replaceAll_first_occurrence (pat rep a b : List Char)
    (hpat : pat ≠ [])
    (hfirst : ∀ j, j < a.length → leadsWith pat ((a ++ pat ++ b).drop j) = false) :
    replaceAll pat rep (a ++ pat ++ b) = a ++ rep ++ replaceAll pat rep b := by
  have hplen : 1 ≤ pat.length := by
    cases pat with
    | nil => exact absurd rfl hpat
    | cons _ _ => simp
  suffices h : ∀ (fuel : Nat) (a : List Char),
      (a ++ pat ++ b).length ≤ fuel →
      (∀ j, j < a.length → leadsWith pat ((a ++ pat ++ b).drop j) = false) →
      replaceAllF fuel pat rep (a ++ pat ++ b) =
        a ++ rep ++ replaceAllF (fuel - (a.length + 1)) pat rep b by
    rw [replaceAll, h ((a ++ pat ++ b).length) a (Nat.le_refl _) hfirst,
      replaceAll]
    rw [replaceAllF_congr _ b.length pat rep b (by
      simp only [List.length_append]; omega) (Nat.le_refl _)]
  intro fuel
  induction fuel with
  | zero =>
    intro a hle _
    exfalso
    simp only [List.length_append] at hle
    omega
  | succ fuel ih =>
    intro a hle hfirst'
    cases a with
    | nil =>
      simp only [List.nil_append]
      cases pat with
      | nil => exact absurd rfl hpat
      | cons p ps =>
        simp only [List.cons_append, replaceAllF, List.append_eq]
        rw [if_pos]
        · have hdrop : List.drop (p :: ps).length (p :: (ps ++ b)) = b := by
            rw [← List.cons_append]
            exact List.drop_left _ _
          rw [hdrop]
          simp
        · simp only [List.isEmpty_cons, Bool.not_false, Bool.true_and]
          exact (leadsWith_iff _ _).mpr ⟨b, by simp⟩
    | cons x a' =>
      have hx : (x :: a') ++ pat ++ b = x :: (a' ++ pat ++ b) := by simp
      rw [hx]
      have h0 := hfirst' 0 (by simp)
      rw [hx] at h0
      simp only [List.drop_zero] at h0
      simp only [replaceAllF]
      rw [if_neg]
      · have hle' : (a' ++ pat ++ b).length ≤ fuel := by
          rw [hx] at hle
          simpa using Nat.le_of_succ_le_succ hle
        have hfirst'' : ∀ j, j < a'.length →
            leadsWith pat ((a' ++ pat ++ b).drop j) = false := by
          intro j hj
          have := hfirst' (j + 1) (by simpa using Nat.succ_lt_succ hj)
          rw [hx] at this
          simpa using this
        rw [ih a' hle' hfirst'']
        have hfu : fuel + 1 - ((x :: a').length + 1) = fuel - (a'.length + 1) := by
          simp only [List.length_cons]
          omega
        rw [hfu]
        simp
      · simp only [List.append_assoc] at h0
        simp [h0]

/-! ## Quoting lemmas -/

theorem linesOf_ne_nil : ∀ s : List Char, linesOf s ≠ [] := by
  intro s
  cases s with
  | nil => simp [linesOf]
  | cons c cs =>
    simp only [linesOf]
    by_cases hc : c == '\n'
    · rw [if_pos hc]; simp
    · rw [if_neg hc]
      cases linesOf cs <;> simp

theorem linesOf_cons_ne (c : Char) (cs : List Char) (hc : (c == '\n') = false) :
    ∃ h tl, linesOf cs = h :: tl ∧ linesOf (c :: cs) = (c :: h) :: tl := by
  cases hls : linesOf cs with
  | nil => exact absurd hls (linesOf_ne_nil cs)
  | cons h tl =>
    refine ⟨h, tl, rfl, ?_⟩
    simp only [linesOf, hc]
    rw [if_neg (by simp [hc]), hls]

/-- Every line after the first in the newline-collapsed text starts with the
quote marker. -/
theorem collapseQuote_tail_lines :
    ∀ (s : List Char) (bl : Bool),
      ∀ l ∈ (linesOf (collapseQuote s bl)).tail, l.take 2 = ['>', ' '] := by
  intro s
  induction s with
  | nil => intro bl l hl; simp [collapseQuote, linesOf] at hl
  | cons c cs ih =>
    intro bl l hl
    by_cases hc : c == '\n'
    · rw [show collapseQuote (c :: cs) bl =
          if c == '\n' then
            (if bl then collapseQuote cs true
             else '\n' :: '>' :: ' ' :: collapseQuote cs true)
          else c :: collapseQuote cs false from rfl, if_pos hc] at hl
      by_cases hbl : bl
      · rw [if_pos hbl] at hl
        exact ih true l hl
      · rw [if_neg hbl] at hl
        rw [show linesOf ('\n' :: '>' :: ' ' :: collapseQuote cs true) =
            [] :: linesOf ('>' :: ' ' :: collapseQuote cs true) from by
          simp [linesOf]] at hl
        simp only [List.tail_cons] at hl
        obtain ⟨h1, tl1, hls1, hls2⟩ :=
          linesOf_cons_ne ' ' (collapseQuote cs true) (by decide)
        obtain ⟨h2, tl2, hls3, hls4⟩ :=
          linesOf_cons_ne '>' (' ' :: collapseQuote cs true) (by decide)
        rw [hls4] at hl
        rw [hls2] at hls3
        injection hls3 with e1 e2
        rcases List.mem_cons.mp hl with rfl | hmem
        · rw [← e1]; rfl
        · subst e2
          exact ih true l (by rw [hls1]; simpa using hmem)
    · rw [show collapseQuote (c :: cs) bl =
          if c == '\n' then
            (if bl then collapseQuote cs true
             else '\n' :: '>' :: ' ' :: collapseQuote cs true)
          else c :: collapseQuote cs false from rfl,
          if_neg (by simp [hc])] at hl
      obtain ⟨h1, tl1, hls1, hls2⟩ :=
        linesOf_cons_ne c (collapseQuote cs false) (by simpa using hc)
      rw [hls2] at hl
      simp only [List.tail_cons] at hl
      exact ih false l (by rw [hls1]; simpa using hl)

/-- Every line of the rendered quoted body starts with the quote marker. -/
theorem quoteBody_lines (s : List Char) :
    ∀ l ∈ linesOf (quoteBody s), l.take 2 = ['>', ' '] := by
  intro l hl
  rw [quoteBody] at hl
  obtain ⟨h1, tl1, hls1, hls2⟩ :=
    linesOf_cons_ne ' ' (collapseQuote s false) (by decide)
  obtain ⟨h2, tl2, hls3, hls4⟩ :=
    linesOf_cons_ne '>' (' ' :: collapseQuote s false) (by decide)
  rw [hls4] at hl
  rw [hls2] at hls3
  injection hls3 with e1 e2
  rcases List.mem_cons.mp hl with rfl | hmem
  · rw [← e1]; rfl
  · subst e2
    exact collapseQuote_tail_lines s false l (by rw [hls1]; simpa using hmem)

theorem hasDoubleNl_cons_ne (c : Char) (hc : (c == '\n') = false)
    (t : List Char) : hasDoubleNl (c :: t) = hasDoubleNl t := by
  cases t with
  | nil => simp [hasDoubleNl]
  | cons b rest => simp [hasDoubleNl, hc]

theorem collapseQuote_noDoubleNl :
    ∀ (s : List Char) (bl : Bool), hasDoubleNl (collapseQuote s bl) = false := by
  intro s
  induction s with
  | nil => intro bl; simp [collapseQuote, hasDoubleNl]
  | cons c cs ih =>
    intro bl
    rw [show collapseQuote (c :: cs) bl =
        if c == '\n' then
          (if bl then collapseQuote cs true
           else '\n' :: '>' :: ' ' :: collapseQuote cs true)
        else c :: collapseQuote cs false from rfl]
    by_cases hc : c == '\n'
    · rw [if_pos hc]
      by_cases hbl : bl
      · rw [if_pos hbl]; exact ih true
      · rw [if_neg hbl]
        rw [show hasDoubleNl ('\n' :: '>' :: ' ' :: collapseQuote cs true) =
            hasDoubleNl (' ' :: collapseQuote cs true) from by
          simp [hasDoubleNl]]
        rw [hasDoubleNl_cons_ne ' ' (by decide)]
        exact ih true
    · have hc' : (c == '\n') = false := by simpa using hc
      rw [if_neg hc, hasDoubleNl_cons_ne c hc']
      exact ih false

/-- The rendered quoted body never contains two adjacent newlines. -/
theorem quoteBody_noDoubleNl (s : List Char) :
    hasDoubleNl (quoteBody s) = false := by
  rw [quoteBody, hasDoubleNl_cons_ne '>' (by decide),
    hasDoubleNl_cons_ne ' ' (by decide)]
  exact collapseQuote_noDoubleNl s false

/-! ## The service model (activity.ts line 20-119) -/

/-- Error taxonomy: `Forbidden` is the only error recognized by
`isDirectusError(err, ErrorCode.Forbidden)`; `notFound` is the resolver's
missing-user failure; `typeErr` is the runtime error raised by dereferencing
a property of a missing accountability; `other` covers every other failure. -/
inductive DErr
  | forbidden
  | notFound
  | typeErr
  | other (code : Nat)
deriving DecidableEq

/-- activity.ts line 109: `isDirectusError(err, ErrorCode.Forbidden)`. -/
def isForbidden : DErr → Bool
  | .forbidden => true
  | _ => false

/-- The `Accountability` value built per recipient (activity.ts line 47-54):
subject, role, admin/app flags, and the resolved permission set. -/
structure Acct where
  user : Option String
  role : Option String
  admin : Option Bool
  app : Option Bool
  permissions : List String
deriving DecidableEq

/-- The notification payload handed to
`notificationsService.createOne` (activity.ts line 100-107). -/
structure Notif where
  recipient : String
  sender : String
  subject : String
  message : String
  collection : String
  item : String
deriving DecidableEq

/-- Observable side effects of one `createOne` call, in order. -/
inductive Ev
  | readSender (key : Option String)
  | readUser (uid : String)
  | getPerms (uid : String)
  | access (acct : Acct) (collection item : String) (ok : Bool)
  | batchFetch (acct : Acct) (ids : List String)
  | warn (uid : String)
  | notify (n : Notif)
  | created
deriving DecidableEq

/-- Oracle environment describing the external collaborators (spec §6):
the user store, the permission resolver, the authorization oracle, the
per-recipient scoped user query, the notification sink and the record store. -/
structure Env where
  readUser : String → Except DErr UserRec
  getPermissions : Acct → Except DErr (List String)
  checkAccess : Acct → String → String → Except DErr Unit
  readByQuery : Acct → List String → Except DErr (List UserRec)
  notifyCreate : Notif → Except DErr Nat
  createRecord : Except DErr Nat
  publicUrl : String

/-- The service's own accountability (`this.accountability`), whose `user`
may itself be null. -/
structure ServiceAcct where
  user : Option String
deriving DecidableEq

/-- The `createOne` input fields the comment branch reads: `action`,
`comment` (kept only when it is a string), `collection` and `item`. -/
structure CommentInput where
  action : Option String
  comment : Option String
  collection : String
  item : String
deriving DecidableEq

/-- activity.ts line 47-52: the fresh per-recipient accountability, before
permissions are attached. -/
def mkBaseAcct (userID : String) (user : UserRec) : Acct :=
  { user := some userID, role := user.roleId, admin := user.roleAdmin,
    app := user.roleApp, permissions := [] }

/-- activity.ts line 54: the same accountability with the resolved
permission set attached. -/
def mkFullAcct (userID : String) (user : UserRec) (perms : List String) : Acct :=
  { mkBaseAcct userID user with permissions := perms }

/-- Modelled from the spec: the record-store `readOne` used for the sender
lookup (activity.ts line 36) fails with `NotFound` when the key does not name
a known user (§4.2, §6); a null key names no user. -/
def lookupSender (env : Env) : Option String → Except DErr UserRec
  | none => .error .notFound
  | some uid => env.readUser uid

/-- The notification built for one authorized mention
(activity.ts line 90-107), using that recipient's batch fetch result `td`. -/
def mentionNotif (env : Env) (dat : CommentInput) (c : String)
    (sender : UserRec) (mentions : List String) (userID : String)
    (user : UserRec) (td : List UserRec) : Notif :=
  { recipient := userID
    sender := sender.id
    subject := "Você foi mencionado em " ++ dat.collection
    message := mkMessage user sender
      (renderComment mentions (mkPreviews td) c)
      (mkHref env.publicUrl dat.collection dat.item)
    collection := dat.collection
    item := dat.item }

/-- The body of the `try` block (activity.ts line 59-107): authorization
check, per-recipient batch profile fetch, rendering, and notification
enqueue. Returns the events it performed and its outcome. -/
def mentionAttempt (env : Env) (dat : CommentInput) (c : String)
    (sender : UserRec) (mentions : List String) (userID : String)
    (user : UserRec) (acct : Acct) : List Ev × Except DErr Unit :=
  match env.checkAccess acct dat.collection dat.item with
  | .error e => ([.access acct dat.collection dat.item false], .error e)
  | .ok _ =>
    match env.readByQuery acct (mentions.map (fun m => mentionUuid m)) with
    | .error e =>
      ([.access acct dat.collection dat.item true,
        .batchFetch acct (mentions.map (fun m => mentionUuid m))], .error e)
    | .ok td =>
      match env.notifyCreate (mentionNotif env dat c sender mentions userID user td) with
      | .error e =>
        ([.access acct dat.collection dat.item true,
          .batchFetch acct (mentions.map (fun m => mentionUuid m))], .error e)
      | .ok _ =>
        ([.access acct dat.collection dat.item true,
          .batchFetch acct (mentions.map (fun m => mentionUuid m)),
          .notify (mentionNotif env dat c sender mentions userID user td)],
          .ok ())

/-- One iteration of the mention loop (activity.ts line 40-115): resolve the
recipient and its permissions outside the isolation boundary, then run the
`try` block; a `Forbidden` failure is logged and swallowed, any other failure
is returned as fatal. -/
def runMention (env : Env) (dat : CommentInput) (c : String)
    (sender : UserRec) (mentions : List String) (mention : String) :
    List Ev × Option DErr :=
  let userID := mentionUuid mention
  match env.readUser userID with
  | .error e => ([.readUser userID], some e)
  | .ok user =>
    match env.getPermissions (mkBaseAcct userID user) with
    | .error e => ([.readUser userID, .getPerms userID], some e)
    | .ok perms =>
      let acct := mkFullAcct userID user perms
      match mentionAttempt env dat c sender mentions userID user acct with
      | (tr, .ok _) => (.readUser userID :: .getPerms userID :: tr, none)
      | (tr, .error e) =>
        if isForbidden e then
          (.readUser userID :: .getPerms userID :: tr ++ [.warn userID], none)
        else
          (.readUser userID :: .getPerms userID :: tr, some e)

/-- The sequential mention loop: stops at the first fatal error. -/
def runMentions (env : Env) (dat : CommentInput) (c : String)
    (sender : UserRec) (mentions : List String) :
    List String → List Ev × Option DErr
  | [] => ([], none)
  | m :: ms =>
    match runMention env dat c sender mentions m with
    | (tr, some e) => (tr, some e)
    | (tr, none) =>
      match runMentions env dat c sender mentions ms with
      | (tr2, r2) => (tr ++ tr2, r2)

/-- activity.ts line 118: the final `super.createOne(data, opts)`; the
`created` event is recorded only when the record store succeeds. -/
def finalizeCreate (env : Env) (tr : List Ev) : List Ev × Except DErr Nat :=
  match env.createRecord with
  | .ok k => (tr ++ [.created], .ok k)
  | .error e => (tr, .error e)

/-- activity.ts line 30-119: the full `createOne`. For a comment action with
a string comment body, extract mentions, look the sender up through
`this.accountability!.user!` (a missing accountability raises a runtime
type error; a null user key makes the lookup fail), run the mention loop,
and finally create the activity record itself. -/
def createOne (env : Env) (svcAcct : Option ServiceAcct) (dat : CommentInput) :
    List Ev × Except DErr Nat :=
  match dat.action, dat.comment with
  | some act, some c =>
    if act = "comment" then
      let mentions := extractMentions c
      match svcAcct with
      | none => ([], .error .typeErr)
      | some sa =>
        match lookupSender env sa.user with
        | .error e => ([.readSender sa.user], .error e)
        | .ok sender =>
          match runMentions env dat c sender mentions mentions with
          | (tr, some e) => (.readSender sa.user :: tr, .error e)
          | (tr, none) => finalizeCreate env (.readSender sa.user :: tr)
    else finalizeCreate env []
  | _, _ => finalizeCreate env []

/-! ## Helpers over traces -/

instance {ε α : Type} [DecidableEq ε] [DecidableEq α] :
    DecidableEq (Except ε α) := fun a b =>
  match a, b with
  | .ok x, .ok y =>
    match decEq x y with
    | .isTrue h => .isTrue (by rw [h])
    | .isFalse h => .isFalse (fun he => h (Except.ok.inj he))
  | .ok _, .error _ => .isFalse (fun he => Except.noConfusion he)
  | .error _, .ok _ => .isFalse (fun he => Except.noConfusion he)
  | .error x, .error y =>
    match decEq x y with
    | .isTrue h => .isTrue (by rw [h])
    | .isFalse h => .isFalse (fun he => h (Except.error.inj he))

/-- The notifications enqueued in a trace, in order. -/
def notifsOf (tr : List Ev) : List Notif :=
  tr.filterMap fun e =>
    match e with
    | .notify n => some n
    | _ => none

/-- Is the event an authorization check? -/
def isAccessEv : Ev → Bool
  | .access _ _ _ _ => true
  | _ => false

/-- Is the event a batch profile fetch? -/
def isBatchEv : Ev → Bool
  | .batchFetch _ _ => true
  | _ => false

/-! ## Characterization of one mention iteration -/

theorem runMention_resolve_fails (env : Env) (dat : CommentInput) (c : String)
    (sender : UserRec) (mentions : List String) (m : String) (e : DErr)
    (h1 : env.readUser (mentionUuid m) = .error e) :
    runMention env dat c sender mentions m = ([.readUser (mentionUuid m)], some e) := by
  simp [runMention, h1]

theorem runMention_perms_fails (env : Env) (dat : CommentInput) (c : String)
    (sender : UserRec) (mentions : List String) (m : String) (user : UserRec)
    (e : DErr)
    (h1 : env.readUser (mentionUuid m) = .ok user)
    (h2 : env.getPermissions (mkBaseAcct (mentionUuid m) user) = .error e) :
    runMention env dat c sender mentions m =
      ([.readUser (mentionUuid m), .getPerms (mentionUuid m)], some e) := by
  simp [runMention, h1, h2]

theorem runMention_access_forbidden (env : Env) (dat : CommentInput)
    (c : String) (sender : UserRec) (mentions : List String) (m : String)
    (user : UserRec) (perms : List String)
    (h1 : env.readUser (mentionUuid m) = .ok user)
    (h2 : env.getPermissions (mkBaseAcct (mentionUuid m) user) = .ok perms)
    (h3 : env.checkAccess (mkFullAcct (mentionUuid m) user perms)
      dat.collection dat.item = .error .forbidden) :
    runMention env dat c sender mentions m =
      ([.readUser (mentionUuid m), .getPerms (mentionUuid m),
        .access (mkFullAcct (mentionUuid m) user perms) dat.collection
          dat.item false,
        .warn (mentionUuid m)], none) := by
  simp [runMention, mentionAttempt, h1, h2, h3, isForbidden]

theorem runMention_access_other (env : Env) (dat : CommentInput)
    (c : String) (sender : UserRec) (mentions : List String) (m : String)
    (user : UserRec) (perms : List String) (e : DErr)
    (h1 : env.readUser (mentionUuid m) = .ok user)
    (h2 : env.getPermissions (mkBaseAcct (mentionUuid m) user) = .ok perms)
    (h3 : env.checkAccess (mkFullAcct (mentionUuid m) user perms)
      dat.collection dat.item = .error e)
    (h4 : isForbidden e = false) :
    runMention env dat c sender mentions m =
      ([.readUser (mentionUuid m), .getPerms (mentionUuid m),
        .access (mkFullAcct (mentionUuid m) user perms) dat.collection
          dat.item false], some e) := by
  simp [runMention, mentionAttempt, h1, h2, h3, h4]

theorem runMention_batch_forbidden (env : Env) (dat : CommentInput)
    (c : String) (sender : UserRec) (mentions : List String) (m : String)
    (user : UserRec) (perms : List String)
    (h1 : env.readUser (mentionUuid m) = .ok user)
    (h2 : env.getPermissions (mkBaseAcct (mentionUuid m) user) = .ok perms)
    (h3 : env.checkAccess (mkFullAcct (mentionUuid m) user perms)
      dat.collection dat.item = .ok ())
    (h4 : env.readByQuery (mkFullAcct (mentionUuid m) user perms)
      (mentions.map (fun x => mentionUuid x)) = .error .forbidden) :
    runMention env dat c sender mentions m =
      ([.readUser (mentionUuid m), .getPerms (mentionUuid m),
        .access (mkFullAcct (mentionUuid m) user perms) dat.collection
          dat.item true,
        .batchFetch (mkFullAcct (mentionUuid m) user perms)
          (mentions.map (fun x => mentionUuid x)),
        .warn (mentionUuid m)], none) := by
  simp [runMention, mentionAttempt, h1, h2, h3, h4, isForbidden]

theorem runMention_batch_other (env : Env) (dat : CommentInput)
    (c : String) (sender : UserRec) (mentions : List String) (m : String)
    (user : UserRec) (perms : List String) (e : DErr)
    (h1 : env.readUser (mentionUuid m) = .ok user)
    (h2 : env.getPermissions (mkBaseAcct (mentionUuid m) user) = .ok perms)
    (h3 : env.checkAccess (mkFullAcct (mentionUuid m) user perms)
      dat.collection dat.item = .ok ())
    (h4 : env.readByQuery (mkFullAcct (mentionUuid m) user perms)
      (mentions.map (fun x => mentionUuid x)) = .error e)
    (h5 : isForbidden e = false) :
    runMention env dat c sender mentions m =
      ([.readUser (mentionUuid m), .getPerms (mentionUuid m),
        .access (mkFullAcct (mentionUuid m) user perms) dat.collection
          dat.item true,
        .batchFetch (mkFullAcct (mentionUuid m) user perms)
          (mentions.map (fun x => mentionUuid x))], some e) := by
  simp [runMention, mentionAttempt, h1, h2, h3, h4, h5]

theorem runMention_notify_forbidden (env : Env) (dat : CommentInput)
    (c : String) (sender : UserRec) (mentions : List String) (m : String)
    (user : UserRec) (perms : List String) (td : List UserRec)
    (h1 : env.readUser (mentionUuid m) = .ok user)
    (h2 : env.getPermissions (mkBaseAcct (mentionUuid m) user) = .ok perms)
    (h3 : env.checkAccess (mkFullAcct (mentionUuid m) user perms)
      dat.collection dat.item = .ok ())
    (h4 : env.readByQuery (mkFullAcct (mentionUuid m) user perms)
      (mentions.map (fun x => mentionUuid x)) = .ok td)
    (h5 : env.notifyCreate
      (mentionNotif env dat c sender mentions (mentionUuid m) user td) =
      .error .forbidden) :
    runMention env dat c sender mentions m =
      ([.readUser (mentionUuid m), .getPerms (mentionUuid m),
        .access (mkFullAcct (mentionUuid m) user perms) dat.collection
          dat.item true,
        .batchFetch (mkFullAcct (mentionUuid m) user perms)
          (mentions.map (fun x => mentionUuid x)),
        .warn (mentionUuid m)], none) := by
  simp [runMention, mentionAttempt, h1, h2, h3, h4, h5, isForbidden]

theorem runMention_notify_other (env : Env) (dat : CommentInput)
    (c : String) (sender : UserRec) (mentions : List String) (m : String)
    (user : UserRec) (perms : List String) (td : List UserRec) (e : DErr)
    (h1 : env.readUser (mentionUuid m) = .ok user)
    (h2 : env.getPermissions (mkBaseAcct (mentionUuid m) user) = .ok perms)
    (h3 : env.checkAccess (mkFullAcct (mentionUuid m) user perms)
      dat.collection dat.item = .ok ())
    (h4 : env.readByQuery (mkFullAcct (mentionUuid m) user perms)
      (mentions.map (fun x => mentionUuid x)) = .ok td)
    (h5 : env.notifyCreate
      (mentionNotif env dat c sender mentions (mentionUuid m) user td) =
      .error e)
    (h6 : isForbidden e = false) :
    runMention env dat c sender mentions m =
      ([.readUser (mentionUuid m), .getPerms (mentionUuid m),
        .access (mkFullAcct (mentionUuid m) user perms) dat.collection
          dat.item true,
        .batchFetch (mkFullAcct (mentionUuid m) user perms)
          (mentions.map (fun x => mentionUuid x))], some e) := by
  simp [runMention, mentionAttempt, h1, h2, h3, h4, h5, h6]

theorem runMention_success (env : Env) (dat : CommentInput)
    (c : String) (sender : UserRec) (mentions : List String) (m : String)
    (user : UserRec) (perms : List String) (td : List UserRec) (k : Nat)
    (h1 : env.readUser (mentionUuid m) = .ok user)
    (h2 : env.getPermissions (mkBaseAcct (mentionUuid m) user) = .ok perms)
    (h3 : env.checkAccess (mkFullAcct (mentionUuid m) user perms)
      dat.collection dat.item = .ok ())
    (h4 : env.readByQuery (mkFullAcct (mentionUuid m) user perms)
      (mentions.map (fun x => mentionUuid x)) = .ok td)
    (h5 : env.notifyCreate
      (mentionNotif env dat c sender mentions (mentionUuid m) user td) =
      .ok k) :
    runMention env dat c sender mentions m =
      ([.readUser (mentionUuid m), .getPerms (mentionUuid m),
        .access (mkFullAcct (mentionUuid m) user perms) dat.collection
          dat.item true,
        .batchFetch (mkFullAcct (mentionUuid m) user perms)
          (mentions.map (fun x => mentionUuid x)),
        .notify (mentionNotif env dat c sender mentions (mentionUuid m) user
          td)], none) := by
  simp [runMention, mentionAttempt, h1, h2, h3, h4, h5]

/-! ## The per-recipient authorization invariant -/

/-- Every notification in the trace is preceded by a successful authorization
check performed with an accountability built freshly from the recipient's own
resolved user record and permissions. -/
def NotifyGuarded (env : Env) (collection item : String) (tr : List Ev) : Prop :=
  ∀ pre n post, tr = pre ++ Ev.notify n :: post →
    ∃ user perms,
      env.readUser n.recipient = .ok user ∧
      env.getPermissions (mkBaseAcct n.recipient user) = .ok perms ∧
      Ev.access (mkFullAcct n.recipient user perms) collection item true ∈ pre

theorem notifyGuarded_of_no_notify {env : Env} {collection item : String}
    {tr : List Ev} (h : ∀ n, Ev.notify n ∉ tr) :
    NotifyGuarded env collection item tr := by
  intro pre n post heq
  exact absurd (heq ▸ List.mem_append_right pre (List.mem_cons_self _ _)) (h n)

theorem notifyGuarded_append {env : Env} {collection item : String}
    {tr1 tr2 : List Ev} (g1 : NotifyGuarded env collection item tr1)
    (g2 : NotifyGuarded env collection item tr2) :
    NotifyGuarded env collection item (tr1 ++ tr2) := by
  intro pre n post heq
  rcases List.append_eq_append_iff.mp heq with ⟨a', ha1, ha2⟩ | ⟨c', hc1, hc2⟩
  · obtain ⟨user, perms, e1, e2, hmem⟩ := g2 a' n post ha2
    exact ⟨user, perms, e1, e2, ha1 ▸ List.mem_append_right tr1 hmem⟩
  · cases c' with
    | nil =>
      obtain ⟨user, perms, e1, e2, hmem⟩ :=
        g2 [] n post (by simpa using hc2.symm)
      exact absurd hmem (List.not_mem_nil _)
    | cons x c'' =>
      injection hc2 with hx hrest
      subst hx
      obtain ⟨user, perms, e1, e2, hmem⟩ := g1 pre n c'' hc1
      exact ⟨user, perms, e1, e2, hmem⟩

theorem notifyGuarded_cons {env : Env} {collection item : String}
    {e : Ev} {tr : List Ev} (he : ∀ n, e ≠ Ev.notify n)
    (g : NotifyGuarded env collection item tr) :
    NotifyGuarded env collection item (e :: tr) := by
  intro pre n post heq
  cases pre with
  | nil =>
    injection heq with h1 _
    exact absurd h1 (he n)
  | cons p pre' =>
    injection heq with h1 h2
    obtain ⟨user, perms, e1, e2, hmem⟩ := g pre' n post h2
    exact ⟨user, perms, e1, e2, List.mem_cons_of_mem p hmem⟩

theorem eq_append_notify (l1 : List Ev) (n0 : Notif)
    (hl1 : ∀ n, Ev.notify n ∉ l1) :
    ∀ pre n post, l1 ++ [Ev.notify n0] = pre ++ Ev.notify n :: post →
      pre = l1 ∧ n = n0 ∧ post = [] := by
  induction l1 with
  | nil =>
    intro pre n post heq
    cases pre with
    | nil =>
      injection heq with h1 h2
      injection h1 with h1
      exact ⟨rfl, h1.symm, h2.symm⟩
    | cons p pre' =>
      injection heq with h1 h2
      exact absurd h2.symm (by simp)
  | cons e l1' ih =>
    intro pre n post heq
    cases pre with
    | nil =>
      injection heq with h1 _
      exact absurd (h1 ▸ List.mem_cons_self e l1') (h1 ▸ hl1 n)
    | cons p pre' =>
      injection heq with h1 h2
      obtain ⟨hp, hn, hpost⟩ :=
        ih (fun n hn => hl1 n (List.mem_cons_of_mem e hn)) pre' n post h2
      exact ⟨by rw [hp, h1], hn, hpost⟩

theorem notifyGuarded_runMention (env : Env) (dat : CommentInput) (c : String)
    (sender : UserRec) (mentions : List String) (m : String) :
    NotifyGuarded env dat.collection dat.item
      (runMention env dat c sender mentions m).1 := by
  cases hru : env.readUser (mentionUuid m) with
  | error e =>
    rw [runMention_resolve_fails env dat c sender mentions m e hru]
    exact notifyGuarded_of_no_notify (by intro n; simp)
  | ok user =>
    cases hgp : env.getPermissions (mkBaseAcct (mentionUuid m) user) with
    | error e =>
      rw [runMention_perms_fails env dat c sender mentions m user e hru hgp]
      exact notifyGuarded_of_no_notify (by intro n; simp)
    | ok perms =>
      cases hca : env.checkAccess (mkFullAcct (mentionUuid m) user perms)
          dat.collection dat.item with
      | error e =>
        cases e with
        | forbidden =>
          rw [runMention_access_forbidden env dat c sender mentions m user
            perms hru hgp hca]
          exact notifyGuarded_of_no_notify (by intro n; simp)
        | notFound =>
          rw [runMention_access_other env dat c sender mentions m user perms
            _ hru hgp hca rfl]
          exact notifyGuarded_of_no_notify (by intro n; simp)
        | typeErr =>
          rw [runMention_access_other env dat c sender mentions m user perms
            _ hru hgp hca rfl]
          exact notifyGuarded_of_no_notify (by intro n; simp)
        | other k =>
          rw [runMention_access_other env dat c sender mentions m user perms
            _ hru hgp hca rfl]
          exact notifyGuarded_of_no_notify (by intro n; simp)
      | ok u =>
        cases u
        cases hbq : env.readByQuery (mkFullAcct (mentionUuid m) user perms)
            (mentions.map (fun x => mentionUuid x)) with
        | error e =>
          cases e with
          | forbidden =>
            rw [runMention_batch_forbidden env dat c sender mentions m user
              perms hru hgp hca hbq]
            exact notifyGuarded_of_no_notify (by intro n; simp)
          | notFound =>
            rw [runMention_batch_other env dat c sender mentions m user perms
              _ hru hgp hca hbq rfl]
            exact notifyGuarded_of_no_notify (by intro n; simp)
          | typeErr =>
            rw [runMention_batch_other env dat c sender mentions m user perms
              _ hru hgp hca hbq rfl]
            exact notifyGuarded_of_no_notify (by intro n; simp)
          | other k =>
            rw [runMention_batch_other env dat c sender mentions m user perms
              _ hru hgp hca hbq rfl]
            exact notifyGuarded_of_no_notify (by intro n; simp)
        | ok td =>
          cases hnc : env.notifyCreate
              (mentionNotif env dat c sender mentions (mentionUuid m) user td) with
          | error e =>
            cases e with
            | forbidden =>
              rw [runMention_notify_forbidden env dat c sender mentions m user
                perms td hru hgp hca hbq hnc]
              exact notifyGuarded_of_no_notify (by intro n; simp)
            | notFound =>
              rw [runMention_notify_other env dat c sender mentions m user
                perms td _ hru hgp hca hbq hnc rfl]
              exact notifyGuarded_of_no_notify (by intro n; simp)
            | typeErr =>
              rw [runMention_notify_other env dat c sender mentions m user
                perms td _ hru hgp hca hbq hnc rfl]
              exact notifyGuarded_of_no_notify (by intro n; simp)
            | other k =>
              rw [runMention_notify_other env dat c sender mentions m user
                perms td _ hru hgp hca hbq hnc rfl]
              exact notifyGuarded_of_no_notify (by intro n; simp)
          | ok k =>
            rw [runMention_success env dat c sender mentions m user perms td k
              hru hgp hca hbq hnc]
            intro pre n post heq
            obtain ⟨hpre, hn, hpost⟩ := eq_append_notify
              [.readUser (mentionUuid m), .getPerms (mentionUuid m),
               .access (mkFullAcct (mentionUuid m) user perms) dat.collection
                 dat.item true,
               .batchFetch (mkFullAcct (mentionUuid m) user perms)
                 (mentions.map (fun x => mentionUuid x))]
              (mentionNotif env dat c sender mentions (mentionUuid m) user td)
              (by intro n; simp) pre n post heq
            subst hpre hn
            exact ⟨user, perms, hru, hgp, by simp [mentionNotif]⟩

theorem notifyGuarded_runMentions (env : Env) (dat : CommentInput)
    (c : String) (sender : UserRec) (mentions : List String) :
    ∀ ms, NotifyGuarded env dat.collection dat.item
      (runMentions env dat c sender mentions ms).1 := by
  intro ms
  induction ms with
  | nil => exact notifyGuarded_of_no_notify (by intro n; simp [runMentions])
  | cons m ms' ih =>
    have hm := notifyGuarded_runMention env dat c sender mentions m
    simp only [runMentions]
    cases hrm : runMention env dat c sender mentions m with
    | mk tr r =>
      rw [hrm] at hm
      cases r with
      | some e => exact hm
      | none =>
        cases hr2 : runMentions env dat c sender mentions ms' with
        | mk tr2 r2 =>
          rw [hr2] at ih
          exact notifyGuarded_append hm ih

theorem notifyGuarded_finalize {env : Env} {collection item : String}
    {tr : List Ev} (g : NotifyGuarded env collection item tr) :
    NotifyGuarded env collection item (finalizeCreate env tr).1 := by
  rw [finalizeCreate]
  cases env.createRecord with
  | ok k =>
    exact notifyGuarded_append g (notifyGuarded_of_no_notify (by intro n; simp))
  | error e => exact g

/-! ## Concrete material for witnesses and counterexamples -/

/-- Concrete version-4 identifier A. -/
def uuidA : String := "11111111-1111-4111-8111-111111111111"

/-- Concrete mention token for A. -/
def tokA : String := "@11111111-1111-4111-8111-111111111111"

/-- Concrete version-4 identifier B. -/
def uuidB : String := "22222222-2222-4222-9222-222222222222"

/-- Concrete mention token for B. -/
def tokB : String := "@22222222-2222-4222-9222-222222222222"

/-- Concrete sender profile. -/
def senderW : UserRec :=
  { id := "s0", firstName := some "Sam", lastName := none, email := none,
    roleId := none, roleAdmin := none, roleApp := none }

/-- Concrete recipient profile A. -/
def userA : UserRec :=
  { id := uuidA, firstName := some "Ana", lastName := some "Silva",
    email := some "ana", roleId := some "r1", roleAdmin := some false,
    roleApp := some true }

/-- Concrete recipient profile B. -/
def userB : UserRec :=
  { id := uuidB, firstName := some "Bob", lastName := none, email := none,
    roleId := some "r2", roleAdmin := some false, roleApp := some false }

/-- User store shared by the concrete environments. -/
def readUserW : String → Except DErr UserRec := fun uid =>
  if uid = "s0" then .ok senderW
  else if uid = uuidA then .ok userA
  else if uid = uuidB then .ok userB
  else .error .notFound

/-- Concrete environment in which everything succeeds. -/
def envW : Env :=
  { readUser := readUserW
    getPermissions := fun _ => .ok []
    checkAccess := fun _ _ _ => .ok ()
    readByQuery := fun _ _ => .ok []
    notifyCreate := fun _ => .ok 7
    createRecord := .ok 99
    publicUrl := "http://x" }

/-- Concrete comment input mentioning only A. -/
def datW : CommentInput :=
  { action := some "comment", comment := some tokA, collection := "articles",
    item := "42" }

/-- The trace prefix of the successful run in `envW` up to its notification. -/
def preW : List Ev :=
  [.readSender (some "s0"), .readUser uuidA, .getPerms uuidA,
   .access (mkFullAcct uuidA userA []) "articles" "42" true,
   .batchFetch (mkFullAcct uuidA userA []) [uuidA]]

/-- The notification enqueued by the successful run in `envW`. -/
def nW : Notif := mentionNotif envW datW tokA senderW [tokA] uuidA userA []

/-! ## C1 -/

/-- C1: for every comment-creation input, whenever a notification for a
recipient appears in the trace, a successful authorization check on the
comment's (collection, item) appears strictly before it, and the
accountability used by that check was built freshly from the recipient's own
resolved user record (role, admin/app flags) and resolved permissions — the
construction `mkFullAcct` of activity.ts line 47-54 — never from the
commenter's context. -/
theorem notification_requires_recipient_access_check (env : Env)
    (svcAcct : Option ServiceAcct) (dat : CommentInput) :
    ∀ pre n post, (createOne env svcAcct dat).1 = pre ++ Ev.notify n :: post →
      ∃ user perms,
        env.readUser n.recipient = .ok user ∧
        env.getPermissions (mkBaseAcct n.recipient user) = .ok perms ∧
        Ev.access (mkFullAcct n.recipient user perms) dat.collection dat.item
          true ∈ pre := by
  suffices h : NotifyGuarded env dat.collection dat.item
      (createOne env svcAcct dat).1 from h
  rcases dat with ⟨act, com, coll, itm⟩
  cases act with
  | none =>
    exact notifyGuarded_finalize (notifyGuarded_of_no_notify (fun n => by simp))
  | some a =>
    cases com with
    | none =>
      exact notifyGuarded_finalize
        (notifyGuarded_of_no_notify (fun n => by simp))
    | some c =>
      simp only [createOne]
      by_cases ha : a = "comment"
      · rw [if_pos ha]
        cases svcAcct with
        | none => exact notifyGuarded_of_no_notify (fun n => by simp)
        | some sa =>
          cases hls : lookupSender env sa.user with
          | error e =>
            simp only [hls]
            exact notifyGuarded_of_no_notify (fun n => by simp)
          | ok sender =>
            cases hrm : runMentions env ⟨some a, some c, coll, itm⟩ c sender
                (extractMentions c) (extractMentions c) with
            | mk tr r =>
              have hNGtr := notifyGuarded_runMentions env
                ⟨some a, some c, coll, itm⟩ c sender (extractMentions c)
                (extractMentions c)
              rw [hrm] at hNGtr
              cases r with
              | some e =>
                simp only [hls, hrm]
                exact notifyGuarded_cons (fun n => by simp) hNGtr
              | none =>
                simp only [hls, hrm]
                exact notifyGuarded_finalize
                  (notifyGuarded_cons (fun n => by simp) hNGtr)
      · rw [if_neg ha]
        exact notifyGuarded_finalize
          (notifyGuarded_of_no_notify (fun n => by simp))

/-- Witness for C1: in the concrete all-success environment, the enqueued
notification is preceded by the successful fresh-context access check. -/
theorem notification_requires_recipient_access_check_witness :
    ∃ user perms,
      envW.readUser nW.recipient = .ok user ∧
      envW.getPermissions (mkBaseAcct nW.recipient user) = .ok perms ∧
      Ev.access (mkFullAcct nW.recipient user perms) datW.collection
        datW.item true ∈ preW :=
  notification_requires_recipient_access_check envW
    (some { user := some "s0" }) datW preW nW [.created] (by decide)

/-! ## The record-creation event appears only at the end -/

theorem created_notin_mentionAttempt (env : Env) (dat : CommentInput)
    (c : String) (sender : UserRec) (mentions : List String) (userID : String)
    (user : UserRec) (acct : Acct) :
    Ev.created ∉ (mentionAttempt env dat c sender mentions userID user acct).1 := by
  rw [mentionAttempt]
  split
  · simp
  · split
    · simp
    · split <;> simp

theorem created_notin_runMention (env : Env) (dat : CommentInput) (c : String)
    (sender : UserRec) (mentions : List String) (m : String) :
    Ev.created ∉ (runMention env dat c sender mentions m).1 := by
  simp only [runMention]
  split
  · simp
  · split
    · simp
    · rename_i s1 ruser heq1 s2 perms heq2
      split
      · rename_i tr val heq
        have hma := created_notin_mentionAttempt env dat c sender mentions
          (mentionUuid m) ruser (mkFullAcct (mentionUuid m) ruser perms)
        rw [heq] at hma
        simpa using hma
      · rename_i tr e heq
        have hma := created_notin_mentionAttempt env dat c sender mentions
          (mentionUuid m) ruser (mkFullAcct (mentionUuid m) ruser perms)
        rw [heq] at hma
        split
        · simpa using hma
        · simpa using hma

theorem created_notin_runMentions (env : Env) (dat : CommentInput)
    (c : String) (sender : UserRec) (mentions : List String) :
    ∀ ms, Ev.created ∉ (runMentions env dat c sender mentions ms).1 := by
  intro ms
  induction ms with
  | nil => simp [runMentions]
  | cons m ms' ih =>
    have hm := created_notin_runMention env dat c sender mentions m
    simp only [runMentions]
    cases hrm : runMention env dat c sender mentions m with
    | mk tr r =>
      rw [hrm] at hm
      cases r with
      | some e => simpa using hm
      | none =>
        cases hr2 : runMentions env dat c sender mentions ms' with
        | mk tr2 r2 =>
          rw [hr2] at ih
          simp only []
          intro hmem
          rcases List.mem_append.mp hmem with h | h
          · exact hm h
          · exact ih h

/-! ## C5 -/

/-- C5: for every comment-creation input, when the create succeeds the
activity record is written exactly once, as the very last effect (in
particular after all mention processing); when the operation fails — for any
reason, including a fatal mention error — no record is written, so no
partially-created comment record is left behind. -/
theorem record_created_once_after_fanout (env : Env)
    (svcAcct : Option ServiceAcct) (dat : CommentInput) (c : String)
    (ha : dat.action = some "comment") (hc : dat.comment = some c) :
    (∀ k, (createOne env svcAcct dat).2 = .ok k →
      ∃ tr', (createOne env svcAcct dat).1 = tr' ++ [Ev.created] ∧
        Ev.created ∉ tr') ∧
    (∀ e, (createOne env svcAcct dat).2 = .error e →
      Ev.created ∉ (createOne env svcAcct dat).1) := by
  rcases dat with ⟨act, com, coll, itm⟩
  obtain rfl : act = some "comment" := by simpa using ha
  obtain rfl : com = some c := by simpa using hc
  simp only [createOne, reduceIte]
  cases svcAcct with
  | none => exact ⟨fun k h => by simp at h, fun e h => by simp⟩
  | some sa =>
    cases hls : lookupSender env sa.user with
    | error e0 =>
      simp only [hls]
      exact ⟨fun k h => by simp at h, fun e h => by simp⟩
    | ok sender =>
      have hcm := created_notin_runMentions env
        ⟨some "comment", some c, coll, itm⟩ c sender (extractMentions c)
        (extractMentions c)
      cases hrm : runMentions env ⟨some "comment", some c, coll, itm⟩ c sender
          (extractMentions c) (extractMentions c) with
      | mk tr r =>
        rw [hrm] at hcm
        simp only [] at hcm
        cases r with
        | some e0 =>
          simp only [hls, hrm]
          refine ⟨fun k h => by simp at h, fun e h => ?_⟩
          intro hmem
          rcases List.mem_cons.mp hmem with h1 | h1
          · exact Ev.noConfusion h1
          · exact hcm h1
        | none =>
          simp only [hls, hrm, finalizeCreate]
          cases hcr : env.createRecord with
          | ok k0 =>
            simp only [hcr]
            refine ⟨fun k h => ?_, fun e h => by simp at h⟩
            refine ⟨Ev.readSender sa.user :: tr, by simp, ?_⟩
            intro hmem
            rcases List.mem_cons.mp hmem with h1 | h1
            · exact Ev.noConfusion h1
            · exact hcm h1
          | error e0 =>
            simp only [hcr]
            refine ⟨fun k h => by simp at h, fun e h => ?_⟩
            intro hmem
            rcases List.mem_cons.mp hmem with h1 | h1
            · exact Ev.noConfusion h1
            · exact hcm h1

/-- Witness for C5 at the concrete all-success environment. -/
theorem record_created_once_after_fanout_witness :
    (∀ k, (createOne envW (some { user := some "s0" }) datW).2 = .ok k →
      ∃ tr', (createOne envW (some { user := some "s0" }) datW).1 =
        tr' ++ [Ev.created] ∧ Ev.created ∉ tr') ∧
    (∀ e, (createOne envW (some { user := some "s0" }) datW).2 = .error e →
      Ev.created ∉ (createOne envW (some { user := some "s0" }) datW).1) :=
  record_created_once_after_fanout envW (some { user := some "s0" }) datW
    tokA rfl rfl

/-! ## C10 -/

/-- C10: a comment-action create requires an authenticated calling user —
when the service has no accountability, or an accountability whose user is
null, `createOne` fails before any mention processing: the operation errors
out and the only event that can appear in the trace is the failed sender
lookup (no resolution, authorization, rendering, enqueue or record creation
happens, even when the comment has no mentions at all). -/
theorem comment_requires_authenticated_user (env : Env) (dat : CommentInput)
    (c : String) (svcAcct : Option ServiceAcct)
    (ha : dat.action = some "comment") (hc : dat.comment = some c)
    (hs : svcAcct = none ∨ svcAcct = some { user := none }) :
    ∃ e, (createOne env svcAcct dat).2 = .error e ∧
      ∀ ev ∈ (createOne env svcAcct dat).1, ev = Ev.readSender none := by
  rcases dat with ⟨act, com, coll, itm⟩
  obtain rfl : act = some "comment" := by simpa using ha
  obtain rfl : com = some c := by simpa using hc
  simp only [createOne, reduceIte]
  rcases hs with rfl | rfl
  · exact ⟨.typeErr, rfl, by simp⟩
  · simp only [lookupSender]
    exact ⟨.notFound, rfl, by simp⟩

/-- Witness for C10: a null accountability user fails the sender lookup. -/
theorem comment_requires_authenticated_user_witness :
    ∃ e, (createOne envW (some { user := none }) datW).2 = .error e ∧
      ∀ ev ∈ (createOne envW (some { user := none }) datW).1,
        ev = Ev.readSender none :=
  comment_requires_authenticated_user envW datW tokA
    (some { user := none }) rfl rfl (Or.inr rfl)

/-! ## C8 -/

/-- A text without the sigil character contains no mention token at all. -/
theorem noMention_of_no_at {c : String} (h : '@' ∉ c.data) :
    ∀ a t b, c.data = a ++ t ++ b → ¬ MentionGrammar (String.mk t) := by
  intro a t b hdec hg
  obtain ⟨u, hu, -⟩ := hg
  apply h
  rw [hdec, show t = '@' :: u from hu]
  simp

/-- C8 (amended): for a comment whose text contains no substring matching the
mention grammar, extraction returns the empty sequence and the whole fan-out
is skipped — no recipient resolution, no permission resolution, no
authorization check, no batch fetch, no rendering and no notification enqueue
occur; besides the sender profile lookup (which still runs, and whose failure
can still fail the operation), the only remaining effect is the ordinary
record creation. -/
theorem no_mentions_skips_fanout_amended (env : Env)
    (svcAcct : Option ServiceAcct) (dat : CommentInput) (c : String)
    (ha : dat.action = some "comment") (hc : dat.comment = some c)
    (hno : ∀ a t b, c.data = a ++ t ++ b → ¬ MentionGrammar (String.mk t)) :
    extractMentions c = [] ∧
    ∀ ev ∈ (createOne env svcAcct dat).1,
      (∃ key, ev = Ev.readSender key) ∨ ev = Ev.created := by
  have hraw : rawMentions c = [] := by
    cases hr : rawMentions c with
    | nil => rfl
    | cons t ts =>
      exfalso
      have hmem : t ∈ rawMentions c := by rw [hr]; simp
      obtain ⟨⟨a, b, hdec⟩, hg⟩ := (mem_rawMentions c t).mp hmem
      have : MentionGrammar (String.mk t.data) := by
        cases t
        exact hg
      exact hno a t.data b hdec this
  have hext : extractMentions c = [] := by
    rw [extractMentions, hraw]
    rfl
  refine ⟨hext, ?_⟩
  rcases dat with ⟨act, com, coll, itm⟩
  obtain rfl : act = some "comment" := by simpa using ha
  obtain rfl : com = some c := by simpa using hc
  simp only [createOne, reduceIte, hext]
  cases svcAcct with
  | none => simp
  | some sa =>
    cases hls : lookupSender env sa.user with
    | error e0 =>
      simp only [hls]
      intro ev hev
      simp only [List.mem_singleton] at hev
      exact Or.inl ⟨sa.user, hev⟩
    | ok sender =>
      simp only [hls, runMentions, finalizeCreate]
      cases hcr : env.createRecord with
      | ok k0 =>
        simp only [hcr]
        intro ev hev
        simp only [List.nil_append, List.cons_append, List.mem_cons,
          List.mem_singleton] at hev
        rcases hev with rfl | hev
        · exact Or.inl ⟨sa.user, rfl⟩
        · rcases hev with rfl | hev
          · exact Or.inr rfl
          · exact absurd hev (List.not_mem_nil ev)
      | error e0 =>
        simp only [hcr]
        intro ev hev
        simp only [List.mem_singleton] at hev
        exact Or.inl ⟨sa.user, hev⟩

/-- Concrete comment input with no mentions. -/
def datH : CommentInput :=
  { action := some "comment", comment := some "hello", collection := "articles",
    item := "42" }

/-- Concrete environment whose user store always fails with a non-Forbidden
error, so even the sender lookup fails. -/
def env8 : Env :=
  { readUser := fun _ => .error (.other 7)
    getPermissions := fun _ => .ok []
    checkAccess := fun _ _ _ => .ok ()
    readByQuery := fun _ _ => .ok []
    notifyCreate := fun _ => .ok 7
    createRecord := .ok 99
    publicUrl := "http://x" }

/-- Witness for the amended C8 at a concrete mention-free comment. -/
theorem no_mentions_skips_fanout_amended_witness :
    extractMentions "hello" = [] ∧
    ∀ ev ∈ (createOne envW (some { user := some "s0" }) datH).1,
      (∃ key, ev = Ev.readSender key) ∨ ev = Ev.created :=
  no_mentions_skips_fanout_amended envW (some { user := some "s0" }) datH
    "hello" rfl rfl (noMention_of_no_at (by decide))

/-- Counterexample for C8 as stated: for the mention-free comment "hello",
the remaining work is not only the ordinary record creation — the sender
lookup also runs, and when it fails the whole operation errors out with no
record created at all (the trace holds a sender-lookup event and no
`created` event). -/
theorem no_mentions_counterexample :
    extractMentions "hello" = [] ∧
    createOne env8 (some { user := some "s0" }) datH =
      ([Ev.readSender (some "s0")], .error (.other 7)) := by decide

/-! ## C3 -/

theorem runMentions_append (env : Env) (dat : CommentInput) (c : String)
    (sender : UserRec) (mentions : List String) :
    ∀ (l1 l2 : List String) (tr1 : List Ev),
      runMentions env dat c sender mentions l1 = (tr1, none) →
      runMentions env dat c sender mentions (l1 ++ l2) =
        (tr1 ++ (runMentions env dat c sender mentions l2).1,
         (runMentions env dat c sender mentions l2).2) := by
  intro l1
  induction l1 with
  | nil =>
    intro l2 tr1 h
    simp only [runMentions] at h
    injection h with h1 h2
    subst h1
    simp only [List.nil_append]
  | cons m l1' ih =>
    intro l2 tr1 h
    simp only [runMentions] at h ⊢
    cases hrm : runMention env dat c sender mentions m with
    | mk trm rm =>
      rw [hrm] at h
      cases rm with
      | some e => simp at h
      | none =>
        cases hr1 : runMentions env dat c sender mentions l1' with
        | mk tra ra =>
          rw [hr1] at h
          injection h with h1 h2
          subst h1 h2
          simp only [List.append_eq]
          rw [ih l2 tra hr1]
          simp [List.append_assoc]

/-- C3 (amended): a syntactically valid mention of an unknown user makes
recipient resolution fail with `NotFound` outside the isolation boundary:
the whole create operation fails with that error, no comment record is
created, and nothing at all is processed after the failing lookup — no
warning, no rendering and no notification for the failing mention or any
later mention. Mentions processed before the failing one keep the
notifications already enqueued; when the failing mention is the first one,
zero notifications are enqueued. -/
theorem nonexistent_mention_fatal_amended (env : Env) (dat : CommentInput)
    (c : String) (sa : ServiceAcct) (su : String) (sender : UserRec)
    (pre suf : List String) (tX : String) (tr0 : List Ev)
    (ha : dat.action = some "comment") (hc : dat.comment = some c)
    (hsu : sa.user = some su) (hsender : env.readUser su = .ok sender)
    (hext : extractMentions c = pre ++ tX :: suf)
    (hbad : env.readUser (mentionUuid tX) = .error .notFound)
    (hpre : runMentions env dat c sender (extractMentions c) pre = (tr0, none)) :
    createOne env (some sa) dat =
      (Ev.readSender (some su) :: (tr0 ++ [Ev.readUser (mentionUuid tX)]),
       .error .notFound) ∧
    Ev.created ∉ (createOne env (some sa) dat).1 ∧
    (pre = [] → notifsOf (createOne env (some sa) dat).1 = []) := by
  rcases dat with ⟨act, com, coll, itm⟩
  obtain rfl : act = some "comment" := by simpa using ha
  obtain rfl : com = some c := by simpa using hc
  rw [hext] at hpre
  have hrun : runMentions env ⟨some "comment", some c, coll, itm⟩ c sender
      (extractMentions c) (extractMentions c) =
      (tr0 ++ [Ev.readUser (mentionUuid tX)], some .notFound) := by
    rw [hext]
    rw [runMentions_append env ⟨some "comment", some c, coll, itm⟩ c sender
      (pre ++ tX :: suf) pre (tX :: suf) tr0 hpre]
    have hTX : runMentions env ⟨some "comment", some c, coll, itm⟩ c sender
        (pre ++ tX :: suf) (tX :: suf) =
        ([Ev.readUser (mentionUuid tX)], some .notFound) := by
      simp only [runMentions]
      rw [runMention_resolve_fails env ⟨some "comment", some c, coll, itm⟩ c
        sender (pre ++ tX :: suf) tX .notFound hbad]
    rw [hTX]
  have hnotin : Ev.created ∉ tr0 := by
    have h1 := created_notin_runMentions env
      ⟨some "comment", some c, coll, itm⟩ c sender (pre ++ tX :: suf) pre
    rw [hpre] at h1
    simpa using h1
  have heq : createOne env (some sa) ⟨some "comment", some c, coll, itm⟩ =
      (Ev.readSender (some su) :: (tr0 ++ [Ev.readUser (mentionUuid tX)]),
       .error .notFound) := by
    simp only [createOne, reduceIte, hsu, lookupSender, hsender, hrun]
  refine ⟨heq, ?_, ?_⟩
  · rw [heq]
    intro hmem
    simp only [List.mem_cons, List.mem_append, List.mem_singleton] at hmem
    rcases hmem with h1 | h1 | h1 | h1
    · exact Ev.noConfusion h1
    · exact hnotin h1
    · exact Ev.noConfusion h1
    · exact absurd h1 (List.not_mem_nil _)
  · intro hpre0
    subst hpre0
    have : tr0 = [] := by
      simp only [runMentions] at hpre
      exact (Prod.mk.injEq _ _ _ _ ▸ hpre).1.symm
    subst this
    rw [heq]
    simp [notifsOf]

/-- Concrete version-4 identifier with no corresponding user in `envW`. -/
def uuidC : String := "33333333-3333-4333-8333-333333333333"

/-- Concrete mention token for the unknown user. -/
def tokC : String := "@33333333-3333-4333-8333-333333333333"

/-- Comment mentioning the known user A first, then the unknown user. -/
def cAX : String :=
  "@11111111-1111-4111-8111-111111111111 @33333333-3333-4333-8333-333333333333"

/-- Comment input for the known-then-unknown mention scenario. -/
def datAX : CommentInput :=
  { action := some "comment", comment := some cAX, collection := "articles",
    item := "42" }

/-- Trace of the successful first mention in the known-then-unknown
scenario. -/
def tr0C : List Ev :=
  [.readUser uuidA, .getPerms uuidA,
   .access (mkFullAcct uuidA userA []) "articles" "42" true,
   .batchFetch (mkFullAcct uuidA userA []) [uuidA, uuidC],
   .notify (mentionNotif envW datAX cAX senderW [tokA, tokC] uuidA userA [])]

/-- Counterexample for C3 as stated: when the nonexistent identifier is
mentioned after an authorized one, the operation does fail, but one
notification (for the earlier mention) has already been enqueued — not
zero. -/
theorem nonexistent_mention_counterexample :
    (createOne envW (some { user := some "s0" }) datAX).2 = .error .notFound ∧
    (notifsOf (createOne envW (some { user := some "s0" }) datAX).1).length
      = 1 := by decide

/-- Witness for the amended C3 at the concrete known-then-unknown scenario. -/
theorem nonexistent_mention_fatal_amended_witness :
    createOne envW (some { user := some "s0" }) datAX =
      (Ev.readSender (some "s0") ::
        (tr0C ++ [Ev.readUser (mentionUuid tokC)]), .error .notFound) ∧
    Ev.created ∉ (createOne envW (some { user := some "s0" }) datAX).1 ∧
    ([tokA] = [] →
      notifsOf (createOne envW (some { user := some "s0" }) datAX).1 = []) :=
  nonexistent_mention_fatal_amended envW datAX cAX { user := some "s0" }
    "s0" senderW [tokA] [] tokC tr0C rfl rfl rfl (by decide) (by decide)
    (by decide) (by decide)

/-! ## C2 -/

/-- C2: for a comment mentioning recipient A (authorized) and recipient B
(forbidden), in either order, the create operation completes successfully,
exactly one notification is enqueued — the one for A, built from A's batch
fetch — and a warning naming B's identifier is logged; processing continues
past the forbidden mention, and no error reaches the caller. -/
theorem forbidden_mention_skipped (env : Env) (dat : CommentInput)
    (c : String) (sa : ServiceAcct) (su : String) (sender : UserRec)
    (tA tB : String) (uA uB : UserRec) (pA pB : List String)
    (td : List UserRec) (kc : Nat)
    (ha : dat.action = some "comment") (hc : dat.comment = some c)
    (hsu : sa.user = some su) (hsender : env.readUser su = .ok sender)
    (hruA : env.readUser (mentionUuid tA) = .ok uA)
    (hruB : env.readUser (mentionUuid tB) = .ok uB)
    (hgpA : env.getPermissions (mkBaseAcct (mentionUuid tA) uA) = .ok pA)
    (hgpB : env.getPermissions (mkBaseAcct (mentionUuid tB) uB) = .ok pB)
    (hcaA : env.checkAccess (mkFullAcct (mentionUuid tA) uA pA) dat.collection
      dat.item = .ok ())
    (hcaB : env.checkAccess (mkFullAcct (mentionUuid tB) uB pB) dat.collection
      dat.item = .error .forbidden)
    (hbq : env.readByQuery (mkFullAcct (mentionUuid tA) uA pA)
      ((extractMentions c).map (fun x => mentionUuid x)) = .ok td)
    (hnc : ∀ n, ∃ k, env.notifyCreate n = .ok k)
    (hcr : env.createRecord = .ok kc)
    (hext : extractMentions c = [tA, tB] ∨ extractMentions c = [tB, tA]) :
    (createOne env (some sa) dat).2 = .ok kc ∧
    notifsOf (createOne env (some sa) dat).1 =
      [mentionNotif env dat c sender (extractMentions c) (mentionUuid tA) uA
        td] ∧
    Ev.warn (mentionUuid tB) ∈ (createOne env (some sa) dat).1 := by
  rcases dat with ⟨act, com, coll, itm⟩
  obtain rfl : act = some "comment" := by simpa using ha
  obtain rfl : com = some c := by simpa using hc
  rcases hext with hext | hext
  · rw [hext] at hbq
    obtain ⟨kA, hkA⟩ := hnc (mentionNotif env
      ⟨some "comment", some c, coll, itm⟩ c sender [tA, tB] (mentionUuid tA)
      uA td)
    have hA := runMention_success env ⟨some "comment", some c, coll, itm⟩ c
      sender [tA, tB] tA uA pA td kA hruA hgpA hcaA hbq hkA
    have hB := runMention_access_forbidden env
      ⟨some "comment", some c, coll, itm⟩ c sender [tA, tB] tB uB pB hruB
      hgpB hcaB
    refine ⟨?_, ?_, ?_⟩ <;>
      simp [createOne, hext, hsu, lookupSender, hsender, runMentions, hA, hB,
        finalizeCreate, hcr, notifsOf]
  · rw [hext] at hbq
    obtain ⟨kA, hkA⟩ := hnc (mentionNotif env
      ⟨some "comment", some c, coll, itm⟩ c sender [tB, tA] (mentionUuid tA)
      uA td)
    have hA := runMention_success env ⟨some "comment", some c, coll, itm⟩ c
      sender [tB, tA] tA uA pA td kA hruA hgpA hcaA hbq hkA
    have hB := runMention_access_forbidden env
      ⟨some "comment", some c, coll, itm⟩ c sender [tB, tA] tB uB pB hruB
      hgpB hcaB
    refine ⟨?_, ?_, ?_⟩ <;>
      simp [createOne, hext, hsu, lookupSender, hsender, runMentions, hA, hB,
        finalizeCreate, hcr, notifsOf]

/-- Comment mentioning A then B. -/
def cAB : String :=
  "@11111111-1111-4111-8111-111111111111 @22222222-2222-4222-9222-222222222222"

/-- Comment input mentioning A then B. -/
def datAB : CommentInput :=
  { action := some "comment", comment := some cAB, collection := "articles",
    item := "42" }

/-- Environment in which B's accountability is forbidden to read the record
and everything else succeeds. -/
def env2 : Env :=
  { readUser := readUserW
    getPermissions := fun _ => .ok []
    checkAccess := fun acct _ _ =>
      if acct.user = some uuidB then .error .forbidden else .ok ()
    readByQuery := fun _ _ => .ok []
    notifyCreate := fun _ => .ok 7
    createRecord := .ok 99
    publicUrl := "http://x" }

/-- Witness for C2 in the concrete A-authorized, B-forbidden environment. -/
theorem forbidden_mention_skipped_witness :
    (createOne env2 (some { user := some "s0" }) datAB).2 = .ok 99 ∧
    notifsOf (createOne env2 (some { user := some "s0" }) datAB).1 =
      [mentionNotif env2 datAB cAB senderW (extractMentions cAB)
        (mentionUuid tokA) userA []] ∧
    Ev.warn (mentionUuid tokB) ∈
      (createOne env2 (some { user := some "s0" }) datAB).1 :=
  forbidden_mention_skipped env2 datAB cAB { user := some "s0" } "s0" senderW
    tokA tokB userA userB [] [] [] 99 rfl rfl rfl (by decide) (by decide)
    (by decide) (by decide) (by decide) (by decide) (by decide) (by decide)
    (fun n => ⟨7, rfl⟩) rfl (Or.inl (by decide))

/-! ## C9 -/

/-- C9: the isolation boundary spans the whole `try` block, not just the
authorization call. After a successful access check: a `Forbidden` raised by
the batch display-profile fetch or by the notification enqueue is caught —
the recipient's warning is logged, no notification is recorded for it, and
the iteration reports no fatal error; a non-`Forbidden` error from either
step propagates as fatal; and an iteration that reports no fatal error lets
the loop continue with the remaining mentions. (Rendering is pure in this
embedding and cannot raise at all.) -/
theorem isolation_boundary_covers_try_block (env : Env) (dat : CommentInput)
    (c : String) (sender : UserRec) (mentions : List String) (m : String)
    (user : UserRec) (perms : List String)
    (hru : env.readUser (mentionUuid m) = .ok user)
    (hgp : env.getPermissions (mkBaseAcct (mentionUuid m) user) = .ok perms)
    (hca : env.checkAccess (mkFullAcct (mentionUuid m) user perms)
      dat.collection dat.item = .ok ()) :
    (env.readByQuery (mkFullAcct (mentionUuid m) user perms)
        (mentions.map (fun x => mentionUuid x)) = .error .forbidden →
      (runMention env dat c sender mentions m).2 = none ∧
      Ev.warn (mentionUuid m) ∈ (runMention env dat c sender mentions m).1 ∧
      notifsOf (runMention env dat c sender mentions m).1 = []) ∧
    (∀ td, env.readByQuery (mkFullAcct (mentionUuid m) user perms)
        (mentions.map (fun x => mentionUuid x)) = .ok td →
      env.notifyCreate (mentionNotif env dat c sender mentions
        (mentionUuid m) user td) = .error .forbidden →
      (runMention env dat c sender mentions m).2 = none ∧
      Ev.warn (mentionUuid m) ∈ (runMention env dat c sender mentions m).1 ∧
      notifsOf (runMention env dat c sender mentions m).1 = []) ∧
    (∀ e, isForbidden e = false →
      env.readByQuery (mkFullAcct (mentionUuid m) user perms)
        (mentions.map (fun x => mentionUuid x)) = .error e →
      (runMention env dat c sender mentions m).2 = some e ∧
      Ev.warn (mentionUuid m) ∉ (runMention env dat c sender mentions m).1) ∧
    (∀ td e, isForbidden e = false →
      env.readByQuery (mkFullAcct (mentionUuid m) user perms)
        (mentions.map (fun x => mentionUuid x)) = .ok td →
      env.notifyCreate (mentionNotif env dat c sender mentions
        (mentionUuid m) user td) = .error e →
      (runMention env dat c sender mentions m).2 = some e ∧
      Ev.warn (mentionUuid m) ∉ (runMention env dat c sender mentions m).1) ∧
    (∀ ms tr, runMention env dat c sender mentions m = (tr, none) →
      runMentions env dat c sender mentions (m :: ms) =
        (tr ++ (runMentions env dat c sender mentions ms).1,
         (runMentions env dat c sender mentions ms).2)) := by
  refine ⟨?_, ?_, ?_, ?_, ?_⟩
  · intro hbq
    rw [runMention_batch_forbidden env dat c sender mentions m user perms hru
      hgp hca hbq]
    refine ⟨rfl, by simp, by simp [notifsOf]⟩
  · intro td hbq hnc
    rw [runMention_notify_forbidden env dat c sender mentions m user perms td
      hru hgp hca hbq hnc]
    refine ⟨rfl, by simp, by simp [notifsOf]⟩
  · intro e he hbq
    rw [runMention_batch_other env dat c sender mentions m user perms e hru
      hgp hca hbq he]
    refine ⟨rfl, by simp⟩
  · intro td e he hbq hnc
    rw [runMention_notify_other env dat c sender mentions m user perms td e
      hru hgp hca hbq hnc he]
    refine ⟨rfl, by simp⟩
  · intro ms tr h
    simp only [runMentions]
    rw [h]

/-- Environment whose scoped batch fetch always fails with Forbidden. -/
def env9 : Env :=
  { readUser := readUserW
    getPermissions := fun _ => .ok []
    checkAccess := fun _ _ _ => .ok ()
    readByQuery := fun _ _ => .error .forbidden
    notifyCreate := fun _ => .ok 7
    createRecord := .ok 99
    publicUrl := "http://x" }

/-- Witness for C9 in the concrete batch-fetch-forbidden environment. -/
theorem isolation_boundary_covers_try_block_witness :
    (env9.readByQuery (mkFullAcct (mentionUuid tokA) userA [])
        ([tokA].map (fun x => mentionUuid x)) = .error .forbidden →
      (runMention env9 datW tokA senderW [tokA] tokA).2 = none ∧
      Ev.warn (mentionUuid tokA) ∈
        (runMention env9 datW tokA senderW [tokA] tokA).1 ∧
      notifsOf (runMention env9 datW tokA senderW [tokA] tokA).1 = []) ∧
    (∀ td, env9.readByQuery (mkFullAcct (mentionUuid tokA) userA [])
        ([tokA].map (fun x => mentionUuid x)) = .ok td →
      env9.notifyCreate (mentionNotif env9 datW tokA senderW [tokA]
        (mentionUuid tokA) userA td) = .error .forbidden →
      (runMention env9 datW tokA senderW [tokA] tokA).2 = none ∧
      Ev.warn (mentionUuid tokA) ∈
        (runMention env9 datW tokA senderW [tokA] tokA).1 ∧
      notifsOf (runMention env9 datW tokA senderW [tokA] tokA).1 = []) ∧
    (∀ e, isForbidden e = false →
      env9.readByQuery (mkFullAcct (mentionUuid tokA) userA [])
        ([tokA].map (fun x => mentionUuid x)) = .error e →
      (runMention env9 datW tokA senderW [tokA] tokA).2 = some e ∧
      Ev.warn (mentionUuid tokA) ∉
        (runMention env9 datW tokA senderW [tokA] tokA).1) ∧
    (∀ td e, isForbidden e = false →
      env9.readByQuery (mkFullAcct (mentionUuid tokA) userA [])
        ([tokA].map (fun x => mentionUuid x)) = .ok td →
      env9.notifyCreate (mentionNotif env9 datW tokA senderW [tokA]
        (mentionUuid tokA) userA td) = .error e →
      (runMention env9 datW tokA senderW [tokA] tokA).2 = some e ∧
      Ev.warn (mentionUuid tokA) ∉
        (runMention env9 datW tokA senderW [tokA] tokA).1) ∧
    (∀ ms tr, runMention env9 datW tokA senderW [tokA] tokA = (tr, none) →
      runMentions env9 datW tokA senderW [tokA] (tokA :: ms) =
        (tr ++ (runMentions env9 datW tokA senderW [tokA] ms).1,
         (runMentions env9 datW tokA senderW [tokA] ms).2)) :=
  isolation_boundary_covers_try_block env9 datW tokA senderW [tokA] tokA
    userA [] (by decide) (by decide) (by decide)

/-! ## C4 -/

/-- The messages of the notifications enqueued in a trace. -/
def notifMsgs (tr : List Ev) : List String :=
  (notifsOf tr).map (fun n => n.message)

/-- Environment in which A's accountability sees A's profile in the scoped
user query but B's accountability sees none, and everything is authorized. -/
def env4 : Env :=
  { readUser := readUserW
    getPermissions := fun _ => .ok []
    checkAccess := fun _ _ _ => .ok ()
    readByQuery := fun acct _ =>
      if acct.user = some uuidA then .ok [userA] else .ok []
    notifyCreate := fun _ => .ok 7
    createRecord := .ok 99
    publicUrl := "http://x" }

/-- Counterexample for C4 as stated: with two authorized recipients, the
batch profile fetch runs once per recipient (two fetch events), each fetch
happens only after that recipient's authorization check (the first access
event precedes the first fetch event), and — because the fetch is scoped by
the recipient's own accountability — the two enqueued notifications carry
different rendered bodies, not an identical shared one. -/
theorem rendering_shared_counterexample :
    (notifMsgs (createOne env4 (some { user := some "s0" }) datAB).1).length
      = 2 ∧
    (notifMsgs (createOne env4 (some { user := some "s0" }) datAB).1).Nodup ∧
    (createOne env4 (some { user := some "s0" }) datAB).1.findIdx isAccessEv <
      (createOne env4 (some { user := some "s0" }) datAB).1.findIdx
        isBatchEv ∧
    (createOne env4 (some { user := some "s0" }) datAB).1.countP isBatchEv
      = 2 := by decide

/-- C4 (amended): the quoted body is not shared across recipients — it is
rendered once per authorized recipient, inside that recipient's isolation
boundary, from a batch profile fetch performed with that recipient's own
fresh accountability and only after that recipient's authorization check;
the enqueued message embeds exactly the body rendered from that fetch's
result, so two recipients' bodies coincide exactly when their own fetches
return the same profile lists. -/
theorem rendering_per_recipient_amended (env : Env) (dat : CommentInput)
    (c : String) (sender : UserRec) (mentions : List String) (m : String)
    (user : UserRec) (perms : List String) (td : List UserRec) (k : Nat)
    (h1 : env.readUser (mentionUuid m) = .ok user)
    (h2 : env.getPermissions (mkBaseAcct (mentionUuid m) user) = .ok perms)
    (h3 : env.checkAccess (mkFullAcct (mentionUuid m) user perms)
      dat.collection dat.item = .ok ())
    (h4 : env.readByQuery (mkFullAcct (mentionUuid m) user perms)
      (mentions.map (fun x => mentionUuid x)) = .ok td)
    (h5 : env.notifyCreate
      (mentionNotif env dat c sender mentions (mentionUuid m) user td) =
      .ok k) :
    runMention env dat c sender mentions m =
      ([.readUser (mentionUuid m), .getPerms (mentionUuid m),
        .access (mkFullAcct (mentionUuid m) user perms) dat.collection
          dat.item true,
        .batchFetch (mkFullAcct (mentionUuid m) user perms)
          (mentions.map (fun x => mentionUuid x)),
        .notify (mentionNotif env dat c sender mentions (mentionUuid m) user
          td)], none) ∧
    (mentionNotif env dat c sender mentions (mentionUuid m) user td).message
      = mkMessage user sender (renderComment mentions (mkPreviews td) c)
        (mkHref env.publicUrl dat.collection dat.item) :=
  ⟨runMention_success env dat c sender mentions m user perms td k h1 h2 h3
    h4 h5, rfl⟩

/-- Witness for the amended C4: recipient A's iteration in the
fetch-scoped environment. -/
theorem rendering_per_recipient_amended_witness :
    runMention env4 datAB cAB senderW [tokA, tokB] tokA =
      ([.readUser (mentionUuid tokA), .getPerms (mentionUuid tokA),
        .access (mkFullAcct (mentionUuid tokA) userA []) datAB.collection
          datAB.item true,
        .batchFetch (mkFullAcct (mentionUuid tokA) userA [])
          ([tokA, tokB].map (fun x => mentionUuid x)),
        .notify (mentionNotif env4 datAB cAB senderW [tokA, tokB]
          (mentionUuid tokA) userA [userA])], none) ∧
    (mentionNotif env4 datAB cAB senderW [tokA, tokB] (mentionUuid tokA)
      userA [userA]).message
      = mkMessage userA senderW
        (renderComment [tokA, tokB] (mkPreviews [userA]) cAB)
        (mkHref env4.publicUrl datAB.collection datAB.item) :=
  rendering_per_recipient_amended env4 datAB cAB senderW [tokA, tokB] tokA
    userA [] [userA] 7 (by decide) (by decide) (by decide) (by decide)
    (by decide)

/-! ## C6 -/

/-- C6: extraction returns exactly the duplicate-free sequence of tokens of
the text that match the mention grammar (`@` + 8-4-4-4-12 hex with version
nibble `4` and variant nibble in `89AB`, case-insensitive): a string is
extracted iff it occurs in the text and matches the grammar (so a token with
a wrong version or variant nibble is never extracted); the result has no
duplicates; it is ordered by first occurrence (the position of each token's
first match in the raw left-to-right scan is strictly increasing); and
extraction is a pure function, so re-running it on the same text yields the
same sequence. -/
theorem mention_extraction_grammar (text : String) :
    (∀ t, t ∈ extractMentions text ↔
      ((∃ a b, text.data = a ++ t.data ++ b) ∧ MentionGrammar t)) ∧
    (extractMentions text).Nodup ∧
    List.Pairwise (fun a b =>
      (rawMentions text).indexOf a < (rawMentions text).indexOf b)
      (extractMentions text) ∧
    extractMentions text = extractMentions text := by
  refine ⟨?_, nodup_uniqFirstAux _ _, pairwise_indexOf_uniqFirstAux _ _, rfl⟩
  intro t
  rw [extractMentions, mem_uniqFirst, mem_rawMentions]

/-- Text mentioning A twice, for the extraction witness. -/
def textC6 : String :=
  "hi @11111111-1111-4111-8111-111111111111 and @11111111-1111-4111-8111-111111111111"

/-- Witness for C6: the duplicated mention of A is extracted once, occurs in
the text, matches the grammar, and the result is duplicate-free. -/
theorem mention_extraction_grammar_witness :
    ((∃ a b, textC6.data = a ++ tokA.data ++ b) ∧ MentionGrammar tokA) ∧
    (extractMentions textC6).Nodup :=
  ⟨((mention_extraction_grammar textC6).1 tokA).mp (by decide),
   (mention_extraction_grammar textC6).2.1⟩

/-! ## C7 -/

/-- C7: rendering never fails and behaves as specified — (a) literal global
replacement rewrites the leftmost occurrence of a (nonempty) token and
continues on the rest, so every occurrence, including repeated occurrences
of the same token, receives the identical substitution; (b) text without an
occurrence is left unchanged; (c) an identifier absent from the profile map
always substitutes the fixed placeholder "@Unknown User" instead of raising;
(d) the substitution pass processes the mention list one literal global
replacement at a time, silently skipping tokens that fail the secondary
format check; (e) the quoted body starts with the quote marker, every one of
its lines starts with the quote marker, and it never contains two adjacent
newlines (runs of newlines are collapsed into single quoted line breaks). -/
theorem rendering_total_spec :
    (∀ (pat rep a b : List Char), pat ≠ [] →
      (∀ j, j < a.length → leadsWith pat ((a ++ pat ++ b).drop j) = false) →
      replaceAll pat rep (a ++ pat ++ b) = a ++ rep ++ replaceAll pat rep b) ∧
    (∀ (pat rep s : List Char), (∀ j, leadsWith pat (s.drop j) = false) →
      replaceAll pat rep s = s) ∧
    (∀ (previews : String → Option String) (uuid : String),
      previews uuid = none → mentionSubst previews uuid = "@Unknown User") ∧
    (∀ (m : String) (ms : List String) (previews : String → Option String)
        (text : List Char),
      substituteMentions (m :: ms) previews text =
        substituteMentions ms previews
          (if isValidUuid (mentionUuid m) = false then text
           else replaceAll m.data
             (mentionSubst previews (mentionUuid m)).data text)) ∧
    (∀ s : List Char, (quoteBody s).take 2 = ['>', ' '] ∧
      (∀ l ∈ linesOf (quoteBody s), l.take 2 = ['>', ' ']) ∧
      hasDoubleNl (quoteBody s) = false) := by
  refine ⟨?_, ?_, ?_, ?_, ?_⟩
  · intro pat rep a b hpat hfirst
    exact replaceAll_first_occurrence pat rep a b hpat hfirst
  · intro pat rep s hno
    exact replaceAllF_no_occurrence s.length pat rep s hno
  · intro previews uuid h
    simp [mentionSubst, h]
  · intro m ms previews text
    rfl
  · intro s
    exact ⟨rfl, quoteBody_lines s, quoteBody_noDoubleNl s⟩

/-- Witness for C7: a concrete replacement around one occurrence, a concrete
placeholder fallback, and the concrete quoting facts. -/
theorem rendering_total_spec_witness :
    replaceAll tokA.data "Z".data ("xy ".data ++ tokA.data ++ " tail".data) =
      "xy ".data ++ "Z".data ++ replaceAll tokA.data "Z".data " tail".data ∧
    mentionSubst (fun _ => none) uuidA = "@Unknown User" ∧
    (quoteBody ("a\n\nb").data).take 2 = ['>', ' '] ∧
    hasDoubleNl (quoteBody ("a\n\nb").data) = false :=
  ⟨rendering_total_spec.1 tokA.data "Z".data "xy ".data " tail".data
     (by decide) (by decide),
   rendering_total_spec.2.2.1 (fun _ => none) uuidA rfl,
   (rendering_total_spec.2.2.2.2 ("a\n\nb").data).1,
   (rendering_total_spec.2.2.2.2 ("a\n\nb").data).2.2⟩
